import Mathlib

/-!
Verification development for the `web` repository's crawling engine.

Strings are modelled as lists of characters (`Str := List Char`).  The
pieces of Go's `net/url` package that the repository relies on
(`url.Parse`, `URL.String`, `URL.ResolveReference`, `URL.Hostname`) are
embedded at the character level, with these documented simplifications:

* percent escapes are validated exactly as Go does, but never decoded:
  hosts, userinfo and paths are stored in their raw (escaped) form, and
  `URL.String`'s path re-escaping (`EscapedPath`) re-escapes the decoded
  path just as Go does;
* Go escapes non-ASCII text byte-by-byte through its UTF-8 encoding;
  here a non-ASCII character is escaped as the single `%XX` of its low
  byte.  All concrete inputs used to settle claims are ASCII, where the
  embedding agrees with Go byte for byte;
* `strings.TrimSpace` trims the Latin-1 white space characters; the
  Unicode `Zs` characters above U+00A0 are not modelled.
-/

namespace WebSpec

/-- Decidable equality for `Except`, used to evaluate the embedded
fallible functions on concrete inputs. -/
instance exceptDecEq {ε α : Type} [DecidableEq ε] [DecidableEq α] :
    DecidableEq (Except ε α)
  | .ok a, .ok b =>
    if h : a = b then .isTrue (by rw [h]) else .isFalse (by intro hh; cases hh; exact h rfl)
  | .error a, .error b =>
    if h : a = b then .isTrue (by rw [h]) else .isFalse (by intro hh; cases hh; exact h rfl)
  | .ok _, .error _ => .isFalse (by intro hh; cases hh)
  | .error _, .ok _ => .isFalse (by intro hh; cases hh)

/-- Character-list model of Go strings. -/
abbrev Str := List Char

/-- Shorthand turning a Lean string literal into the `Str` model. -/
def lit (s : String) : Str := s.data

/-- ASCII upper-case letter test. -/
def isUpperAZ (c : Char) : Bool := 'A' ≤ c && c ≤ 'Z'

/-- ASCII lower-case letter test. -/
def isLowerAZ (c : Char) : Bool := 'a' ≤ c && c ≤ 'z'

/-- ASCII letter test. -/
def isAlphaC (c : Char) : Bool := isUpperAZ c || isLowerAZ c

/-- ASCII digit test. -/
def isDigitC (c : Char) : Bool := '0' ≤ c && c ≤ '9'

/-- Control byte test used by `net/url` (`stringContainsCTLByte`). -/
def isCTL (c : Char) : Bool := c.val < 32 || c.val == 127

/-- White space characters trimmed by Go's `strings.TrimSpace`
(`unicode.IsSpace` restricted to Latin-1). -/
def goIsSpace (c : Char) : Bool :=
  c == ' ' || c == '\t' || c == '\n' || c == '\x0b' || c == '\x0c' ||
    c == '\r' || c.val == 133 || c.val == 160

/-- Model of `strings.HasPrefix`. -/
def startsWith : Str → Str → Bool
  | _, [] => true
  | [], _ :: _ => false
  | c :: s, p :: ps => c == p && startsWith s ps

/-- Model of `strings.Contains` (substring search). -/
def containsSeq : Str → Str → Bool
  | s, pat =>
    match s with
    | [] => pat.isEmpty
    | _ :: t => startsWith s pat || containsSeq t pat

/-- Model of `strings.Cut` with a one-character separator: splits at the
first occurrence, reporting whether the separator was found. -/
def cutChar (c : Char) : Str → Str × Str × Bool
  | [] => ([], [], false)
  | a :: s =>
    if a == c then ([], s, true)
    else
      let r := cutChar c s
      (a :: r.1, r.2.1, r.2.2)

/-- Split at the last occurrence of `c` (Go's `strings.LastIndex`):
returns `some (pre, post)` with `s = pre ++ [c] ++ post` and `c ∉ post`. -/
def cutLast (c : Char) : Str → Option (Str × Str)
  | [] => none
  | a :: t =>
    match cutLast c t with
    | some (pre, post) => some (a :: pre, post)
    | none => if a == c then some ([], t) else none

/-- Model of `strings.TrimSpace`. -/
def trimSpace (s : Str) : Str :=
  ((s.dropWhile goIsSpace).reverse.dropWhile goIsSpace).reverse

/-- ASCII lower-casing of a character. -/
def toLowerC (c : Char) : Char :=
  if isUpperAZ c then Char.ofNat (c.toNat + 32) else c

/-- ASCII lower-casing of a string (Go's `strings.ToLower` on the ASCII
scheme characters produced by `getScheme`). -/
def toLowerStr (s : Str) : Str := s.map toLowerC

/-- Characters allowed after the first position of a URL scheme. -/
def isSchemeExt (c : Char) : Bool :=
  isDigitC c || c == '+' || c == '-' || c == '.'

/-- Parse errors of the embedded `net/url` parser. -/
inductive ParseE where
  | ctl            -- invalid control character in URL
  | missingScheme  -- missing protocol scheme
  | colonSeg       -- first path segment in URL cannot contain colon
  | badPort        -- invalid port after host
  | missingBracket -- missing ']' in host
  | badHostChar    -- invalid character in host name
  | badEscape      -- invalid URL escape
  | badUserinfo    -- invalid userinfo
  deriving Repr, DecidableEq

/-- Loop of Go's `getScheme`, scanning characters after a leading ASCII
letter; `orig` is the whole input, returned when no scheme is present. -/
def getSchemeLoop (orig : Str) : Str → Str → Except ParseE (Str × Str)
  | [], _ => .ok ([], orig)
  | c :: rest, acc =>
    if isAlphaC c || isSchemeExt c then getSchemeLoop orig rest (acc ++ [c])
    else if c == ':' then .ok (acc, rest)
    else .ok ([], orig)

/-- Model of `net/url`'s `getScheme`: splits `scheme:rest`, errors on a
leading `:`, and reports no scheme when the candidate is not well formed. -/
def getScheme : Str → Except ParseE (Str × Str)
  | [] => .ok ([], [])
  | c :: rest =>
    if isAlphaC c then getSchemeLoop (c :: rest) rest [c]
    else if c == ':' then .error .missingScheme
    else .ok ([], c :: rest)

/-- Hexadecimal digit test (`ishex` in `net/url`). -/
def isHexDigit (c : Char) : Bool :=
  isDigitC c || ('a' ≤ c && c ≤ 'f') || ('A' ≤ c && c ≤ 'F')

/-- Validity of percent escapes: every `%` is followed by two hex digits.
This is the error behaviour of Go's `unescape` in the modes that do not
restrict literal characters (path, fragment, userinfo). -/
def validEscapes : Str → Bool
  | [] => true
  | ['%'] => false
  | ['%', _] => false
  | '%' :: a :: b :: rest => isHexDigit a && isHexDigit b && validEscapes rest
  | _ :: rest => validEscapes rest

/-- Literal characters Go accepts in a host name
(`shouldEscape(c, encodeHost) == false`, plus all non-ASCII bytes which
`unescape` leaves untouched). -/
def hostCharOK (c : Char) : Bool :=
  isAlphaC c || isDigitC c ||
    (['-', '.', '_', '~', '!', '$', '&', '\'', '(', ')', '*', '+', ',',
      ';', '=', ':', '[', ']', '<', '>', '"'].contains c) ||
    decide (128 ≤ c.val)

/-- Character-level host validation performed by Go's
`unescape(host, encodeHost)`: percent escapes must be well formed and
every literal character must be acceptable in a host. -/
def validateHostBody : Str → Bool
  | [] => true
  | ['%'] => false
  | ['%', _] => false
  | '%' :: a :: b :: rest => isHexDigit a && isHexDigit b && validateHostBody rest
  | c :: rest => hostCharOK c && validateHostBody rest

/-- Model of `net/url`'s `validOptionalPort`. -/
def validOptionalPort : Str → Bool
  | [] => true
  | ':' :: digits => digits.all isDigitC
  | _ => false

/-- Model of `net/url`'s `parseHost` (IPv6 zone decoding is not
modelled; the raw bracketed host is validated and kept as is). -/
def parseHost (host : Str) : Except ParseE Str :=
  if startsWith host (lit "[") then
    match cutLast ']' host with
    | none => .error .missingBracket
    | some (_, afterBracket) =>
      if validOptionalPort afterBracket then
        if validateHostBody host then .ok host else .error .badHostChar
      else .error .badPort
  else
    match cutLast ':' host with
    | some (_, portDigits) =>
      if validOptionalPort (':' :: portDigits) then
        if validateHostBody host then .ok host else .error .badHostChar
      else .error .badPort
    | none => if validateHostBody host then .ok host else .error .badHostChar

/-- Characters accepted by Go's `validUserinfo`. -/
def userinfoCharOK (c : Char) : Bool :=
  isAlphaC c || isDigitC c ||
    (['-', '.', '_', ':', '~', '!', '$', '&', '\'', '(', ')', '*', '+',
      ',', ';', '=', '%', '@'].contains c)

/-- Model of Go's `validUserinfo`. -/
def validUserinfo (s : Str) : Bool := s.all userinfoCharOK

/-- Model of `net/url`'s `parseAuthority`: userinfo is split off at the
last `@`; the host is parsed first, then the userinfo is validated
(characters and escapes; the decoded form is not stored). -/
def parseAuthority (authority : Str) : Except ParseE (Option Str × Str) :=
  match cutLast '@' authority with
  | none =>
    match parseHost authority with
    | .error e => .error e
    | .ok h => .ok (none, h)
  | some (userinfo, hostPart) =>
    match parseHost hostPart with
    | .error e => .error e
    | .ok h =>
      if validUserinfo userinfo && validEscapes userinfo then .ok (some userinfo, h)
      else .error .badUserinfo

/-- Embedded `net/url.URL`.  `opq` is Go's `Opaque`; `path` holds the raw
(escaped) path, playing the role of Go's `RawPath`/`EscapedPath`. -/
structure GoURL where
  scheme : Str := []
  opq : Str := []
  user : Option Str := none
  host : Str := []
  path : Str := []
  omitHost : Bool := false
  forceQuery : Bool := false
  rawQuery : Str := []
  fragment : Str := []
  deriving Repr, DecidableEq

/-- Model of `net/url`'s internal `parse(rawURL, viaRequest=false)`:
everything of `url.Parse` except the fragment split. -/
def parsePre (raw : Str) : Except ParseE GoURL :=
  if raw.any isCTL then .error .ctl
  else if raw = lit "*" then .ok { path := lit "*" }
  else
    match getScheme raw with
    | .error e => .error e
    | .ok (sc0, rest0) =>
      let sc := toLowerStr sc0
      let qcut :=
        if rest0.getLast? = some '?' ∧ rest0.count '?' = 1 then
          (rest0.dropLast, ([] : Str), true)
        else
          let r := cutChar '?' rest0
          (r.1, r.2.1, false)
      let rest := qcut.1
      let rq := qcut.2.1
      let fq := qcut.2.2
      if ¬ startsWith rest (lit "/") then
        if sc ≠ [] then
          .ok { scheme := sc, opq := rest, rawQuery := rq, forceQuery := fq }
        else
          let seg := (cutChar '/' rest).1
          if seg.contains ':' then .error .colonSeg
          else if validEscapes rest then
            .ok { scheme := sc, path := rest, rawQuery := rq, forceQuery := fq }
          else .error .badEscape
      else
        if (sc ≠ [] ∨ ¬ startsWith rest (lit "///")) ∧ startsWith rest (lit "//") then
          let afterSS := rest.drop 2
          let acut := cutChar '/' afterSS
          let authority := acut.1
          let rest2 : Str := if acut.2.2 then '/' :: acut.2.1 else []
          match parseAuthority authority with
          | .error e => .error e
          | .ok (user, host) =>
            if validEscapes rest2 then
              .ok { scheme := sc, user := user, host := host, path := rest2,
                    rawQuery := rq, forceQuery := fq }
            else .error .badEscape
        else
          let om := sc ≠ [] ∧ startsWith rest (lit "/")
          if validEscapes rest then
            .ok { scheme := sc, path := rest, omitHost := om,
                  rawQuery := rq, forceQuery := fq }
          else .error .badEscape

/-- Model of `net/url.Parse`: cut the fragment at the first `#`, parse the
rest, then validate and attach the fragment. -/
def urlParse (raw : Str) : Except ParseE GoURL :=
  let fcut := cutChar '#' raw
  match parsePre fcut.1 with
  | .error e => .error e
  | .ok u =>
    if fcut.2.2 then
      if validEscapes fcut.2.1 then .ok { u with fragment := fcut.2.1 }
      else .error .badEscape
    else .ok u

/-- Go's `shouldEscape(c, encodePath)`. -/
def shouldEscapePathC (c : Char) : Bool :=
  if isAlphaC c || isDigitC c then false
  else if ['-', '.', '_', '~'].contains c then false
  else if ['$', '&', '+', ',', '/', ':', ';', '=', '?', '@'].contains c then c == '?'
  else true

/-- Go's `validEncoded(s, encodePath)` on a single character. -/
def validEncodedPathC (c : Char) : Bool :=
  (['!', '$', '&', '\'', '(', ')', '*', '+', ',', ';', '=', ':', '@',
    '[', ']', '%'].contains c) || !shouldEscapePathC c

/-- Go's `validEncoded(s, encodePath)`: may the raw path be printed
verbatim by `URL.String`? -/
def validEncodedPath (s : Str) : Bool := s.all validEncodedPathC

/-- Numeric value of a hex digit. -/
def hexVal (c : Char) : Nat :=
  if isDigitC c then c.toNat - 48
  else if 'a' ≤ c && c ≤ 'f' then c.toNat - 87
  else if 'A' ≤ c && c ≤ 'F' then c.toNat - 55
  else 0

/-- Percent-decoding (Go's `unescape` with escapes already validated;
stray `%` is kept literally). -/
def unescapeStr : Str → Str
  | [] => []
  | ['%'] => ['%']
  | ['%', a] => ['%', a]
  | '%' :: a :: b :: rest =>
    if isHexDigit a && isHexDigit b then
      Char.ofNat (16 * hexVal a + hexVal b) :: unescapeStr rest
    else '%' :: unescapeStr (a :: b :: rest)
  | c :: rest => c :: unescapeStr rest

/-- Upper-case hex digit of a value below 16. -/
def hexUp (n : Nat) : Char :=
  if n < 10 then Char.ofNat (48 + n) else Char.ofNat (55 + n)

/-- Go's `escape(s, encodePath)` (non-ASCII characters are escaped as the
single `%XX` of their low byte; Go escapes each UTF-8 byte). -/
def escapePathStr : Str → Str
  | [] => []
  | c :: rest =>
    if shouldEscapePathC c then
      '%' :: hexUp (c.toNat % 256 / 16) :: hexUp (c.toNat % 16) :: escapePathStr rest
    else c :: escapePathStr rest

/-- Go's `URL.EscapedPath` on the raw-path representation: print the raw
path verbatim when it is validly encoded, otherwise re-escape the decoded
path. -/
def printPath (p : Str) : Str :=
  if validEncodedPath p then p else escapePathStr (unescapeStr p)

/-- Model of `net/url.URL.String` (hosts and userinfo are printed raw; see
the file comment). -/
def GoURL.toStr (u : GoURL) : Str :=
  let b1 := if u.scheme ≠ [] then u.scheme ++ [':'] else []
  let b2 :=
    if u.opq ≠ [] then b1 ++ u.opq
    else
      let ba :=
        if u.scheme ≠ [] ∨ u.host ≠ [] ∨ u.user.isSome then
          if u.omitHost ∧ u.host = [] ∧ u.user = none then b1
          else
            let bb := if u.host ≠ [] ∨ u.path ≠ [] ∨ u.user.isSome then b1 ++ lit "//" else b1
            let bc := match u.user with
              | some ui => bb ++ ui ++ ['@']
              | none => bb
            bc ++ u.host
        else b1
      let p := printPath u.path
      let bd := if p ≠ [] ∧ p.head? ≠ some '/' ∧ u.host ≠ [] then ba ++ ['/'] else ba
      let be := if bd = [] ∧ ((cutChar '/' p).1.contains ':') then bd ++ lit "./" else bd
      be ++ p
  let b3 := if u.forceQuery ∨ u.rawQuery ≠ [] then b2 ++ ['?'] ++ u.rawQuery else b2
  if u.fragment ≠ [] then b3 ++ ['#'] ++ u.fragment else b3

/-- Errors of `web.NormalizeURL` (src/normalize.go). -/
inductive NormE where
  | emptyURL            -- "invalid empty url"
  | badScheme           -- "invalid url: ..." (non-http input containing "://")
  | parseFail (e : ParseE)
  deriving Repr, DecidableEq

/-- Embedding of `web.NormalizeURL` (src/normalize.go lines 46-71): trim
white space; a non-`http`-prefixed input containing `://` is rejected,
otherwise `https://` is prepended; an `http://` prefix is rewritten to
`https://`; the result is parsed; query, fragment and `ForceQuery` are
cleared; a bare root path collapses to the empty path. -/
def normalizeURL (value : Str) : Except NormE GoURL :=
  let v := trimSpace value
  if v = [] then .error .emptyURL
  else
    match (if ¬ startsWith v (lit "http") then
             (if containsSeq v (lit "://") then none else some (lit "https://" ++ v))
           else some v) with
    | none => .error .badScheme
    | some v1 =>
      let v2 := if startsWith v1 (lit "http://") then lit "https://" ++ v1.drop 7 else v1
      match urlParse v2 with
      | .error e => .error (.parseFail e)
      | .ok u =>
        let u1 : GoURL := { u with forceQuery := false, rawQuery := [], fragment := [] }
        .ok (if u1.path = ['/'] then { u1 with path := [] } else u1)

/-- Embedding of `web.AreSameHost` (nil URL pointers are `none`). -/
def AreSameHost (u1 u2 : Option GoURL) : Bool :=
  match u1, u2 with
  | some a, some b => a.host == b.host
  | _, _ => false

/-- Model of `strings.Split` with a one-character separator. -/
def splitOnChar (c : Char) : Str → List Str
  | [] => [[]]
  | a :: rest =>
    let r := splitOnChar c rest
    if a == c then [] :: r
    else
      match r with
      | h :: t => (a :: h) :: t
      | [] => [[a]]

/-- Model of `strings.Join` with a `"."` separator. -/
def joinDot : List Str → Str
  | [] => []
  | [x] => x
  | x :: rest => x ++ '.' :: joinDot rest

/-- Embedding of `web.AreRelatedHosts`: hosts match when the last two
dot-separated labels agree; a host with fewer than two labels never
matches. -/
def AreRelatedHosts (u1 u2 : Option GoURL) : Bool :=
  match u1, u2 with
  | some a, some b =>
    let p1 := splitOnChar '.' a.host
    let p2 := splitOnChar '.' b.host
    if p1.length < 2 ∨ p2.length < 2 then false
    else joinDot (p1.drop (p1.length - 2)) == joinDot (p2.drop (p2.length - 2))
  | _, _ => false

/-- Modelled from the spec: the scheme a raw URL string "declares", read
off as what `getScheme` recognises on the trimmed input (used only to
state claim C4, whose wording quantifies over inputs that "declare a
non-empty scheme"). -/
def declScheme (s : Str) : Str :=
  match getScheme (trimSpace s) with
  | .ok (sc, _) => sc
  | .error _ => []

/-- One step of Go's `resolvePath` segment loop: state is the output
buffer (which always begins with `/`) and the `first` flag. -/
def resolveStep (st : Str × Bool) (e : Str) : Str × Bool :=
  if e = ['.'] then (st.1, false)
  else if e = ['.', '.'] then
    match cutLast '/' (st.1.drop 1) with
    | some (pre, _) => ('/' :: pre, true)
    | none => (['/'], true)
  else ((if ¬ st.2 then st.1 ++ ['/'] else st.1) ++ e, false)

/-- Model of `net/url`'s `resolvePath`: merge `ref` into `base` and
remove dot segments (RFC 3986 §5.2.4 as Go implements it). -/
def resolvePath (base ref : Str) : Str :=
  let full :=
    if ref = [] then base
    else if ref.head? ≠ some '/' then
      (match cutLast '/' base with
       | some (pre, _) => pre ++ ['/'] ++ ref
       | none => ref)
    else ref
  if full = [] then []
  else
    let segs := splitOnChar '/' full
    let st := segs.foldl resolveStep (['/'], true)
    let lastE := (segs.getLast?).getD []
    let dst := if lastE = ['.'] ∨ lastE = ['.', '.'] then st.1 ++ ['/'] else st.1
    match dst with
    | r₁ :: r₂ :: rest => if r₂ = '/' then r₂ :: rest else r₁ :: r₂ :: rest
    | r => r

/-- Model of `net/url.URL.ResolveReference`. -/
def GoURL.resolveReference (u ref : GoURL) : GoURL :=
  let url := if ref.scheme = [] then { ref with scheme := u.scheme } else ref
  if ref.scheme ≠ [] ∨ ref.host ≠ [] ∨ ref.user.isSome then
    { url with path := resolvePath (printPath ref.path) [] }
  else if ref.opq ≠ [] then
    { url with user := none, host := [], path := [] }
  else
    let url1 :=
      if ref.path = [] ∧ ¬ ref.forceQuery ∧ ref.rawQuery = [] then
        let url2 := { url with rawQuery := u.rawQuery }
        if ref.fragment = [] then { url2 with fragment := u.fragment } else url2
      else url
    { url1 with host := u.host, user := u.user,
                path := resolvePath (printPath u.path) (printPath ref.path) }

/-- Embedding of `crawler.ResolveLink` (src/unnamed/part_000 lines
371-417): parse the link, strip its fragment; an absolute link is
accepted only with scheme `http` or `https` and re-normalized; a
relative link is resolved against the page domain coerced to an
`https://` base, then normalized. -/
def ResolveLink (domain value : Str) : Str × Bool :=
  match urlParse value with
  | .error _ => ([], false)
  | .ok p0 =>
    let p : GoURL := { p0 with fragment := [] }
    if p.scheme ≠ [] then
      if p.scheme ≠ lit "http" ∧ p.scheme ≠ lit "https" then ([], false)
      else
        match normalizeURL p.toStr with
        | .error _ => ([], false)
        | .ok n => (n.toStr, true)
    else
      let baseDomain :=
        if ¬ startsWith domain (lit "http://") ∧ ¬ startsWith domain (lit "https://") then
          lit "https://" ++ domain
        else domain
      match urlParse baseDomain with
      | .error _ => ([], false)
      | .ok base =>
        match normalizeURL (base.resolveReference p).toStr with
        | .error _ => ([], false)
        | .ok n => (n.toStr, true)

/-- The four `crawler.FollowBehavior` constants. -/
inductive FollowB where
  | any | sameDomain | relatedSubdomains | noneF
  deriving Repr, DecidableEq

/-- Loop body of `crawler.filterURLs`: candidates that fail
normalization are skipped; the behaviour decides admission from the
normalized candidate and the page URL. -/
def filterURLsLoop (behavior : FollowB) (pageURL : GoURL) : List Str → List Str
  | [] => []
  | l :: rest =>
    match normalizeURL l with
    | .error _ => filterURLsLoop behavior pageURL rest
    | .ok u =>
      match behavior with
      | .any => l :: filterURLsLoop behavior pageURL rest
      | .sameDomain =>
        if AreSameHost (some u) (some pageURL) then l :: filterURLsLoop behavior pageURL rest
        else filterURLsLoop behavior pageURL rest
      | .relatedSubdomains =>
        if AreRelatedHosts (some u) (some pageURL) then l :: filterURLsLoop behavior pageURL rest
        else filterURLsLoop behavior pageURL rest
      | .noneF => filterURLsLoop behavior pageURL rest

/-- Embedding of `crawler.filterURLs` (src/unnamed/part_000 lines
330-354). -/
def filterURLs (behavior : FollowB) (pageURL : GoURL) (links : List Str) : List Str :=
  if behavior = .noneF then [] else filterURLsLoop behavior pageURL links

/-- Embedding of `fetch.Link` (only the fields the crawler reads). -/
structure LinkV where
  url : Str := []
  text : Str := []
  deriving Repr, DecidableEq

/-- Lexicographic string order used by `sort.Strings`. -/
def strLe : Str → Str → Bool
  | [], _ => true
  | _ :: _, [] => false
  | x :: xs, y :: ys => if x == y then strLe xs ys else decide (x < y)

/-- Insertion into a `strLe`-sorted list. -/
def insertSorted (x : Str) : List Str → List Str
  | [] => [x]
  | y :: ys => if strLe x y then x :: y :: ys else y :: insertSorted x ys

/-- Ascending sort by `strLe` (the effect of `sort.Strings`). -/
def sortStrs (l : List Str) : List Str := l.foldr insertSorted []

/-- Duplicate removal keeping first occurrences (the key set of the Go
map built by `extractURLs`). -/
def dedupAcc : List Str → List Str → List Str
  | [], _ => []
  | x :: rest, seen =>
    if seen.contains x then dedupAcc rest seen else x :: dedupAcc rest (x :: seen)

/-- Set of distinct strings, in first-occurrence order. -/
def dedupStrs (l : List Str) : List Str := dedupAcc l []

/-- Embedding of `crawler.extractURLs` (src/unnamed/part_000 lines
356-369): resolve every link, collect the successes into a set, and
return them sorted. -/
def extractURLs (domain : Str) (links : List LinkV) : List Str :=
  let resolved := links.filterMap fun l =>
    let r := ResolveLink domain l.url
    if r.2 then some r.1 else none
  sortStrs (dedupStrs resolved)

/-- Model of `net/url.URL.Hostname` (`splitHostPort` then bracket
stripping). -/
def hostNoPort (host : Str) : Str :=
  let h := match cutLast ':' host with
    | some (pre, post) => if validOptionalPort (':' :: post) then pre else host
    | none => host
  if h.head? = some '[' ∧ h.getLast? = some ']' then (h.drop 1).dropLast else h

/-- Embedding of `fetch.Request` (the fields `processURL` sets). -/
structure FetchReq where
  url : Str := []
  prettify : Bool := false
  onlyMainContent : Bool := false
  fetcher : Str := []
  deriving Repr, DecidableEq

/-- Embedding of `fetch.Response` (the fields the crawler reads or
writes; the remaining payload fields are never touched by the crawler
and are omitted).  `links = none` models a nil `Links` slice. -/
structure FetchResp where
  url : Str := []
  statusCode : Nat := 0
  headers : List (Str × Str) := []
  html : Str := []
  links : Option (List LinkV) := none
  deriving Repr, DecidableEq

/-- Environment of one `processURL` call: the cache (absent when the
crawler has none; `Get` hits return the stored markup), the fetcher, the
parser table (per-domain registration plus optional default) and an
abstract parse function, and the follow behaviour. -/
structure ProcEnv where
  cacheGet : Option (Str → Option Str) := none
  fetch : FetchReq → Except Str FetchResp := fun _ => .error []
  fetcherName : Str := []
  parsers : Str → Bool := fun _ => false
  hasDefaultParser : Bool := false
  parseRes : Str → FetchResp → Except Str Str := fun _ _ => .ok []
  followBehavior : FollowB := .noneF

/-- Observable effects of one `processURL` call. -/
structure ProcEffects where
  fetchCalled : Bool := false
  response : Option FetchResp := none
  cacheWrites : List (Str × Str) := []
  callbacks : List (FetchReq × Option Str × Option Str) := []
  toAdmit : List Str := []
  dProcessed : Nat := 0
  dSucceeded : Nat := 0
  dFailed : Nat := 0
  deriving Repr, DecidableEq

/-- Tail of `processURL` after a response is available (parser dispatch,
link extraction, the single callback, follow filtering). -/
def processURLWith (env : ProcEnv) (parsedURL : GoURL) (domain : Str) (req : FetchReq)
    (resp : FetchResp) (fetchCalled : Bool) (writes : List (Str × Str)) : ProcEffects :=
  let hasParser := env.parsers domain ∨ env.hasDefaultParser
  let pr : Option Str × Option Str :=
    if hasParser then
      match env.parseRes domain resp with
      | .ok v => (some v, none)
      | .error e => (none, some e)
    else (none, none)
  let discovered := match resp.links with
    | some ls => extractURLs domain ls
    | none => []
  { fetchCalled := fetchCalled, response := some resp, cacheWrites := writes,
    callbacks := [(req, pr.1, pr.2)],
    toAdmit := filterURLs env.followBehavior parsedURL discovered,
    dProcessed := 1, dSucceeded := 1, dFailed := 0 }

/-- Embedding of `crawler.processURL` (src/unnamed/part_000 lines
240-318): count the URL as processed; parse it (an unparsable URL is
logged and dropped); look the raw string up in the cache, synthesizing a
response from a hit; otherwise fetch (a fetch error is reported through
the callback and counted failed) and write the markup back to the cache;
then parse, extract, call back once, and filter the discovered links. -/
def processURL (env : ProcEnv) (rawURL : Str) : ProcEffects :=
  match urlParse rawURL with
  | .error _ => { dProcessed := 1 }
  | .ok parsedURL =>
    let domain := hostNoPort parsedURL.host
    let req : FetchReq :=
      { url := rawURL, prettify := false, onlyMainContent := false,
        fetcher := if env.fetcherName ≠ [] then env.fetcherName else lit "http" }
    let cachedResp : Option FetchResp :=
      match env.cacheGet with
      | some g =>
        match g rawURL with
        | some html => some { url := rawURL, html := html }
        | none => none
      | none => none
    match cachedResp with
    | some resp => processURLWith env parsedURL domain req resp false []
    | none =>
      match env.fetch req with
      | .error e =>
        { fetchCalled := true, callbacks := [(req, none, some e)],
          dProcessed := 1, dFailed := 1 }
      | .ok resp =>
        let writes := if env.cacheGet.isSome ∧ resp.html ≠ [] then [(rawURL, resp.html)] else []
        processURLWith env parsedURL domain req resp true writes

/-- Frontier state: the `processedURLs` seen set and the bounded
`queue` channel. -/
structure QState where
  seen : List Str := []
  queue : List Str := []
  cap : Nat := 10000
  deriving Repr, DecidableEq

/-- First phase of `queueDiscoveredURLs` (src/unnamed/part_000 lines
420-436): short-circuit once the processed count reaches `maxURLs`;
normalize each URL (failures are logged and skipped); `LoadOrStore` into
the seen set, collecting the fresh normalized strings into `next`. -/
def collectNext (processed maxURLs : Nat) : QState → List Str → QState × List Str
  | st, [] => (st, [])
  | st, rawURL :: rest =>
    if maxURLs ≤ processed then (st, [])
    else
      match normalizeURL rawURL with
      | .error _ => collectNext processed maxURLs st rest
      | .ok u =>
        let v := u.toStr
        if st.seen.contains v then collectNext processed maxURLs st rest
        else
          let r := collectNext processed maxURLs { st with seen := v :: st.seen } rest
          (r.1, v :: r.2)

/-- Non-blocking send of every entry, dropping the ones that do not fit
(the per-entry admission required by spec §4.4/§9 and exercised by
`TestCrawler_FollowBehavior`). -/
def pushAll : QState → List Str → QState
  | st, [] => st
  | st, v :: rest =>
    pushAll (if st.queue.length < st.cap then { st with queue := st.queue ++ [v] } else st) rest

/-- Intended `queueDiscoveredURLs`: collect the fresh entries, then a
non-blocking send per entry. -/
def queueDiscoveredAll (processed maxURLs : Nat) (st : QState) (urls : List Str) : QState :=
  let r := collectNext processed maxURLs st urls
  pushAll r.1 r.2

/-- The `queueDiscoveredURLs` body as committed (src/unnamed/part_000
lines 438-444): after collecting `next`, the function performs exactly
one non-blocking `select` send whose payload names an identifier
`urlStr` that is not in scope (the function does not compile as
written).  This embeds the closest single-send reading: at most one
element of `next` is offered to the queue. -/
def queueDiscoveredSingle (processed maxURLs : Nat) (st : QState) (urls : List Str) : QState :=
  let r := collectNext processed maxURLs st urls
  match r.2 with
  | [] => r.1
  | v :: _ =>
    if r.1.queue.length < r.1.cap then { r.1 with queue := r.1.queue ++ [v] } else r.1

/-- Outcome of `Crawler.enqueue` on the seed list. -/
inductive EnqOut where
  | ok (queued : Nat)
  | err (e : NormE)     -- a seed failed normalization: returned to Crawl
  | cancelled           -- the select observed ctx.Done: ctx.Err() returned
  | blocked             -- queue full and context alive: the send blocks
  deriving Repr, DecidableEq

/-- Embedding of `Crawler.enqueue` (src/unnamed/part_000 lines 197-215):
normalize each seed, aborting the whole loop on the first failure;
`LoadOrStore` and, when fresh, a blocking send with cancellation.  The
select is resolved deterministically: a send that fits succeeds;
otherwise cancellation is observed when the context is done, else the
send blocks awaiting a drain by a worker. -/
def enqueueSeeds (ctxDone : Bool) : QState → List Str → Nat → QState × EnqOut
  | st, [], q => (st, .ok q)
  | st, r :: rest, q =>
    match normalizeURL r with
    | .error e => (st, .err e)
    | .ok u =>
      let v := u.toStr
      if st.seen.contains v then enqueueSeeds ctxDone st rest q
      else
        let st' : QState := { st with seen := v :: st.seen }
        if st'.queue.length < st'.cap then
          enqueueSeeds ctxDone { st' with queue := st'.queue ++ [v] } rest (q + 1)
        else if ctxDone then (st', .cancelled)
        else (st', .blocked)

/-- The possible return values of `Crawler.Crawl`. -/
inductive CrawlRet where
  | alreadyRunning      -- "crawler is already running"
  | seedError (e : NormE)
  | ctxError            -- ctx.Err() propagated out of enqueue
  | blockedSend         -- model artifact: a seed send blocked
  | completed           -- nil (after wg.Wait, or immediately when nothing queued)
  deriving Repr, DecidableEq

/-- Embedding of the return value of `Crawler.Crawl` (src/unnamed/
part_000 lines 155-195).  The return value is a function of the running
flag, the context, the queue capacity and the seed list alone: worker
results never reach it (workers return nothing and `Crawl` returns nil
after `wg.Wait()`). -/
def crawlReturn (running ctxDone : Bool) (cap : Nat) (seeds : List Str) : CrawlRet :=
  if running then .alreadyRunning
  else
    match (enqueueSeeds ctxDone { cap := cap } seeds 0).2 with
    | .err e => .seedError e
    | .cancelled => .ctxError
    | .blocked => .blockedSend
    | .ok _ => .completed

/-- State of the deterministic crawl simulation. -/
structure SimState where
  q : QState := {}
  processed : Nat := 0
  succeeded : Nat := 0
  failed : Nat := 0
  callbackLog : List (FetchReq × Option Str × Option Str) := []
  deriving Repr, DecidableEq

/-- Result of the crawl simulation: `returned` means `Crawl` came back
on its own. -/
inductive SimResult where
  | returned (st : SimState)
  | fuelOut (st : SimState)
  deriving Repr, DecidableEq

/-- Deterministic simulation of the crawl loop after seeding, following
the single-worker schedule: an empty queue with no active worker is
exactly the condition `idleMonitor` (src/unnamed/part_000 lines 468-486)
polls for, upon which it cancels the context, all workers exit, and
`Crawl` returns; a worker observing `processed ≥ maxURLs` exits
(line 227), after which the pool drains and `Crawl` returns likewise.
Otherwise the worker processes the head URL end-to-end and admits its
discoveries through the intended per-entry `queueDiscoveredURLs`. -/
def simRun (env : ProcEnv) (maxURLs : Nat) : Nat → SimState → SimResult
  | 0, st => .fuelOut st
  | fuel + 1, st =>
    match st.q.queue with
    | [] => .returned st
    | u :: rest =>
      if maxURLs ≤ st.processed then .returned st
      else
        let eff := processURL env u
        let st1 : SimState :=
          { st with q := { st.q with queue := rest },
                    processed := st.processed + eff.dProcessed,
                    succeeded := st.succeeded + eff.dSucceeded,
                    failed := st.failed + eff.dFailed,
                    callbackLog := st.callbackLog ++ eff.callbacks }
        simRun env maxURLs fuel { st1 with q := queueDiscoveredAll st1.processed maxURLs st1.q eff.toAdmit }

/-- Admission-system state for the concurrency claims: the seen set, the
pending queue with its capacity, the URLs being processed by workers,
the log of callback deliveries, and a ghost log of every queue push. -/
structure AdmState where
  cap : Nat
  seen : List Str
  pending : List Str
  inflight : List Str
  delivered : List Str
  pushed : List Str
  deriving Repr, DecidableEq

/-- Initial admission state of a run. -/
def AdmState.init (cap : Nat) : AdmState := ⟨cap, [], [], [], [], []⟩

/-- Interleaving semantics of the crawler's admission discipline.  Each
constructor is one atomic event of the Go code: `seedNew`/`discNew` are
a `LoadOrStore` that inserted a fresh key followed by the queue send it
gates (blocking for seeds, hence only enabled with space; `enqueue`
lines 205-211 and `queueDiscoveredURLs` lines 433-444); `discDrop` is a
fresh `LoadOrStore` whose non-blocking send was dropped (full queue or
cancelled context); `seedSeen`/`discSeen` are `LoadOrStore` finding the
key present (no send); `dequeue` is a worker receiving from the channel
(line 223); `deliver` is the single callback invocation of that URL's
`processURL`.  `LoadOrStore` being atomic is what makes the check and
the insert one step. -/
inductive AdmStep : AdmState → AdmState → Prop where
  | seedNew (s : AdmState) (u : Str) (hu : u ∉ s.seen) (hq : s.pending.length < s.cap) :
      AdmStep s { s with seen := u :: s.seen, pending := s.pending ++ [u], pushed := u :: s.pushed }
  | seedSeen (s : AdmState) (u : Str) (hu : u ∈ s.seen) : AdmStep s s
  | discNew (s : AdmState) (u : Str) (hu : u ∉ s.seen) (hq : s.pending.length < s.cap) :
      AdmStep s { s with seen := u :: s.seen, pending := s.pending ++ [u], pushed := u :: s.pushed }
  | discDrop (s : AdmState) (u : Str) (hu : u ∉ s.seen) :
      AdmStep s { s with seen := u :: s.seen }
  | discSeen (s : AdmState) (u : Str) (hu : u ∈ s.seen) : AdmStep s s
  | dequeue (s : AdmState) (u : Str) (rest : List Str) (hp : s.pending = u :: rest) :
      AdmStep s { s with pending := rest, inflight := u :: s.inflight }
  | deliver (s : AdmState) (u : Str) (hu : u ∈ s.inflight) :
      AdmStep s { s with inflight := s.inflight.erase u, delivered := u :: s.delivered }

/-- Reachability of an admission state within one run. -/
def AdmReach (cap : Nat) (s : AdmState) : Prop :=
  Relation.ReflTransGen AdmStep (AdmState.init cap) s

/-- Invariant of the admission system: every URL is pushed at most once;
queue, in-flight and delivery occurrences are covered by pushes; and
pushes only happen to seen URLs. -/
def AdmInv (s : AdmState) : Prop :=
  (∀ u, s.pushed.count u ≤ 1) ∧
  (∀ u, s.pending.count u + s.inflight.count u + s.delivered.count u ≤ s.pushed.count u) ∧
  (∀ u, u ∈ s.pushed → u ∈ s.seen)

/-- Success test for `Except`. -/
def isOkE {ε α : Type} : Except ε α → Bool
  | .ok _ => true
  | .error _ => false

/-- The per-candidate admission decision implemented by the
`filterURLs` loop: candidates failing normalization are dropped, the
rest are admitted purely from the behaviour and the two hosts. -/
def admitB (behavior : FollowB) (pageURL : GoURL) (l : Str) : Bool :=
  match normalizeURL l with
  | .error _ => false
  | .ok u =>
    match behavior with
    | .any => true
    | .sameDomain => AreSameHost (some u) (some pageURL)
    | .relatedSubdomains => AreRelatedHosts (some u) (some pageURL)
    | .noneF => false

/-- The page URL of claim C5's concrete instance (`https://example.com`
as `filterURLs` receives it). -/
def pageEx : GoURL := { scheme := lit "https", host := lit "example.com" }

/-- The candidate links of claim C5's concrete instance. -/
def candsEx : List Str :=
  [lit "https://example.com/a", lit "https://other.com/b", lit "https://sub.example.com/c"]

/-- The scheme-coercion step of `NormalizeURL` in isolation (prepend
`https://` to a non-`http`-prefixed value, rewrite an `http://` prefix
to `https://`), used to state the corrected error condition of C4. -/
def coerceURL (v : Str) : Str :=
  if startsWith v (lit "http") then
    (if startsWith v (lit "http://") then lit "https://" ++ v.drop 7 else v)
  else lit "https://" ++ v

/-- Does the string not end in a (Go) white space character? -/
def noTrailWs (s : Str) : Bool :=
  match s.getLast? with
  | some c => !goIsSpace c
  | none => true

/-- Scheme characters (`getScheme`'s grammar). -/
def schemeCharB (c : Char) : Bool := isAlphaC c || isSchemeExt c

/-- Characters that survive the URL pipeline inside a component: not a
control byte, not `?`, not `#`. -/
def cleanChar (c : Char) : Bool := !isCTL c && c != '?' && c != '#'

/-- Component cleanliness. -/
def clean (s : Str) : Bool := s.all cleanChar

/-- A scheme as `normalizeURL` stores it: `http`-prefixed, lower case,
within the scheme grammar. -/
def lowerSchemeOK (sc : Str) : Bool :=
  startsWith sc (lit "http") && sc.all (fun c => schemeCharB c && !isUpperAZ c)

/-- Shape invariant satisfied by every `normalizeURL` result: query,
fragment and `ForceQuery` are cleared, the path is not a bare `/`, and
the URL is one of the five shapes the pipeline can produce — schemeless
path, opaque, scheme-only, `OmitHost` path, or authority form. -/
def PreWF (u : GoURL) : Prop :=
  clean u.path = true ∧ validEscapes u.path = true ∧
  ((u.scheme = [] ∧ u.opq = [] ∧ u.host = [] ∧ u.user = none ∧ u.omitHost = false ∧
      u.path ≠ [] ∧ startsWith u.path (lit "http") = true ∧
      ((cutChar '/' u.path).1.contains ':') = false) ∨
   (lowerSchemeOK u.scheme = true ∧
     ((u.opq ≠ [] ∧ u.opq.head? ≠ some '/' ∧ clean u.opq = true ∧ u.host = [] ∧
         u.user = none ∧ u.path = [] ∧ u.omitHost = false) ∨
      (u.opq = [] ∧ u.host = [] ∧ u.user = none ∧ u.path = []) ∨
      (u.opq = [] ∧ u.host = [] ∧ u.user = none ∧ u.omitHost = true ∧
         startsWith u.path (lit "/") = true ∧ startsWith u.path (lit "//") = false) ∨
      (u.opq = [] ∧ u.omitHost = false ∧ parseHost u.host = .ok u.host ∧
         (∀ ui, u.user = some ui → validUserinfo ui = true ∧ validEscapes ui = true) ∧
         (u.path = [] ∨ startsWith u.path (lit "/") = true) ∧
         (u.host ≠ [] ∨ u.user.isSome = true ∨ u.path ≠ []) ∧
         u.scheme ≠ lit "http"))))

def WF (u : GoURL) : Prop :=
  u.rawQuery = [] ∧ u.fragment = [] ∧ u.forceQuery = false ∧ u.path ≠ ['/'] ∧ PreWF u


/-- Crawl of a seed list under the deterministic schedule: seed the
frontier (blocking enqueue, live context), then run the worker loop;
`none` when seeding does not complete. -/
def crawlSim (env : ProcEnv) (maxURLs cap fuel : Nat) (seeds : List Str) : Option SimResult :=
  match enqueueSeeds false { cap := cap } seeds 0 with
  | (st, .ok _) => some (simRun env maxURLs fuel { q := st })
  | _ => none

/-- Concrete cache used by witnesses: one entry. -/
def gEx : Str → Option Str :=
  fun k => if k = lit "https://example.com" then some (lit "<h1>cached</h1>") else none

/-- Concrete environment with a cache, used by witnesses. -/
def envCache : ProcEnv := { cacheGet := some gEx }

/-- Concrete environment whose fetcher serves a page without links,
used by witnesses. -/
def envNoLinks : ProcEnv :=
  { fetch := fun r => .ok { url := r.url, statusCode := 200, html := lit "<p>x</p>", links := some [] },
    followBehavior := .any }

/-- Concrete admission state reached by admitting the single seed `a`
into a capacity-2 run (fields: cap, seen, pending, inflight, delivered,
pushed). -/
def admW1 : AdmState := ⟨2, [lit "a"], [lit "a"], [], [], [lit "a"]⟩

/-- Concrete capacity-1 admission state holding the seed `a`. -/
def admS9 : AdmState := ⟨1, [lit "a"], [lit "a"], [], [], [lit "a"]⟩

/-- The state of `admS9` after `b`'s queue push is dropped. -/
def admD9 : AdmState := ⟨1, [lit "b", lit "a"], [lit "a"], [], [], [lit "a"]⟩

/-- The state of `admD9` after dequeuing `a`. -/
def admM9 : AdmState := ⟨1, [lit "b", lit "a"], [], [lit "a"], [], [lit "a"]⟩

/-- The state of `admM9` after delivering `a`'s callback. -/
def admT9 : AdmState := ⟨1, [lit "b", lit "a"], [], [], [lit "a"], [lit "a"]⟩

/-! Helper lemmas about the string primitives. -/

theorem startsWith_append_left (a b p : Str) (h : startsWith a p = true) :
    startsWith (a ++ b) p = true := by
  induction p generalizing a with
  | nil => simp [startsWith]
  | cons c ps ih =>
    cases a with
    | nil => simp [startsWith] at h
    | cons x xs =>
      simp only [startsWith, List.cons_append, Bool.and_eq_true, beq_iff_eq] at h ⊢
      exact ⟨h.1, ih xs h.2⟩

theorem startsWith_iff (s p : Str) : startsWith s p = true ↔ ∃ r, s = p ++ r := by
  induction p generalizing s with
  | nil => simp [startsWith]
  | cons c ps ih =>
    cases s with
    | nil => simp [startsWith]
    | cons x xs =>
      simp only [startsWith, Bool.and_eq_true, beq_iff_eq, ih, List.cons_append,
        List.cons.injEq]
      constructor
      · rintro ⟨rfl, r, rfl⟩; exact ⟨r, rfl, rfl⟩
      · rintro ⟨r, rfl, rfl⟩; exact ⟨rfl, r, rfl⟩

theorem cutChar_of_not_mem (c : Char) (s : Str) (h : c ∉ s) :
    cutChar c s = (s, [], false) := by
  induction s with
  | nil => rfl
  | cons a t ih =>
    have ha : (a == c) = false := by
      simp only [List.mem_cons, not_or] at h
      simp [beq_iff_eq]; exact fun hh => h.1 hh.symm
    simp only [cutChar, ha, Bool.false_eq_true, if_false,
      ih (by simp only [List.mem_cons, not_or] at h; exact h.2)]

theorem cutChar_append_cons (c : Char) (a b : Str) (h : c ∉ a) :
    cutChar c (a ++ c :: b) = (a, b, true) := by
  induction a with
  | nil => simp [cutChar]
  | cons x xs ih =>
    have hx : (x == c) = false := by
      simp only [List.mem_cons, not_or] at h
      simp [beq_iff_eq]; exact fun hh => h.1 hh.symm
    simp only [List.cons_append, cutChar, hx, Bool.false_eq_true, if_false, List.append_eq,
      ih (by simp only [List.mem_cons, not_or] at h; exact h.2)]

theorem cutChar_append_left (c : Char) (a b : Str) (h : c ∉ a) :
    cutChar c (a ++ b) =
      (a ++ (cutChar c b).1, (cutChar c b).2.1, (cutChar c b).2.2) := by
  induction a with
  | nil => simp [cutChar]
  | cons x xs ih =>
    have hx : (x == c) = false := by
      simp only [List.mem_cons, not_or] at h
      simp [beq_iff_eq]; exact fun hh => h.1 hh.symm
    simp only [List.cons_append, cutChar, hx, Bool.false_eq_true, if_false, List.append_eq,
      ih (by simp only [List.mem_cons, not_or] at h; exact h.2)]

theorem cutLast_of_not_mem (c : Char) (s : Str) (h : c ∉ s) : cutLast c s = none := by
  induction s with
  | nil => rfl
  | cons a t ih =>
    have ha : (a == c) = false := by
      simp only [List.mem_cons, not_or] at h
      simp [beq_iff_eq]; exact fun hh => h.1 hh.symm
    simp only [cutLast, ih (by simp only [List.mem_cons, not_or] at h; exact h.2), ha,
      Bool.false_eq_true, if_false]

theorem cutLast_append_cons (c : Char) (a b : Str) (h : c ∉ b) :
    cutLast c (a ++ c :: b) = some (a, b) := by
  induction a with
  | nil => simp [cutLast, cutLast_of_not_mem c b h]
  | cons x xs ih => simp only [List.cons_append, cutLast, List.append_eq, ih]

theorem trimSpace_eq_self (s : Str) (h1 : ∀ c, s.head? = some c → goIsSpace c = false)
    (h2 : ∀ c, s.getLast? = some c → goIsSpace c = false) : trimSpace s = s := by
  cases s with
  | nil => rfl
  | cons a t =>
    have hd : (a :: t).dropWhile goIsSpace = a :: t := by
      rw [List.dropWhile_cons, h1 a rfl]; simp
    rw [trimSpace, hd]
    cases hr : (a :: t).reverse with
    | nil => simp at hr
    | cons b rb =>
      have hb : goIsSpace b = false := by
        refine h2 b ?_
        rw [← List.head?_reverse, hr]; rfl
      simp only [List.dropWhile_cons, hb, Bool.false_eq_true, if_false]
      rw [← hr, List.reverse_reverse]

theorem urlParse_append_fragment (pre f : Str) (hpre : '#' ∉ pre)
    (hf : validEscapes f = true) :
    urlParse (pre ++ '#' :: f) =
      match parsePre pre with
      | .error e => .error e
      | .ok u => .ok { u with fragment := f } := by
  unfold urlParse
  rw [cutChar_append_cons '#' pre f hpre]
  cases hp : parsePre pre <;> simp [hp, hf]

theorem urlParse_no_fragment (pre : Str) (hpre : '#' ∉ pre) :
    urlParse pre = parsePre pre := by
  unfold urlParse
  rw [cutChar_of_not_mem '#' pre hpre]
  cases hp : parsePre pre <;> simp [hp]

theorem admitB_noneF_false (pageU : GoURL) (l : Str) : admitB .noneF pageU l = false := by
  unfold admitB
  cases h : normalizeURL l <;> simp

theorem filterURLsLoop_eq_filter (b : FollowB) (pageU : GoURL) (links : List Str) :
    filterURLsLoop b pageU links = links.filter (admitB b pageU) := by
  induction links with
  | nil => rfl
  | cons l rest ih =>
    cases hn : normalizeURL l with
    | error e =>
      cases b <;> simp [filterURLsLoop, hn, List.filter, admitB, ih]
    | ok u =>
      cases b <;> simp only [filterURLsLoop, hn, List.filter, admitB, ih] <;> split <;>
        simp [*]

theorem processURL_dProcessed (env : ProcEnv) (raw : Str) :
    (processURL env raw).dProcessed = 1 := by
  cases hp : urlParse raw with
  | error e => simp [processURL, hp]
  | ok p =>
    simp only [processURL, hp]
    cases hcg : env.cacheGet with
    | none =>
      simp only [hcg]
      split <;> simp [processURLWith]
    | some g =>
      cases hg : g raw with
      | some html => simp [hcg, hg, processURLWith]
      | none =>
        simp only [hcg, hg]
        split <;> simp [processURLWith]

theorem admInv_init (cap : Nat) : AdmInv (AdmState.init cap) := by
  refine ⟨fun u => ?_, fun u => ?_, fun u h => ?_⟩ <;> simp [AdmState.init] at *

theorem admInv_step {s t : AdmState} (hst : AdmStep s t) (h : AdmInv s) : AdmInv t := by
  obtain ⟨h1, h2, h3⟩ := h
  cases hst with
  | seedSeen u hu => exact ⟨h1, h2, h3⟩
  | discSeen u hu => exact ⟨h1, h2, h3⟩
  | discDrop u hu =>
    exact ⟨h1, h2, fun v hv => List.mem_cons_of_mem _ (h3 v hv)⟩
  | seedNew u hu hq =>
    have hnp : u ∉ s.pushed := fun hm => hu (h3 u hm)
    have hc0 : s.pushed.count u = 0 := List.count_eq_zero.mpr hnp
    refine ⟨fun v => ?_, fun v => ?_, fun v hv => ?_⟩
    · by_cases hvu : v = u
      · subst hvu; simp [List.count_cons, hc0]
      · have := h1 v
        simp [List.count_cons, hvu]
        omega
    · have hs := h2 v
      by_cases hvu : v = u
      · subst hvu
        have := h2 v
        simp only [List.count_append, List.count_cons, List.count_nil, List.count_singleton]
        simp [hc0] at hs ⊢
        omega
      · simp only [List.count_append, List.count_cons, List.count_nil]
        simp [hvu]
        omega
    · rcases List.mem_cons.mp hv with rfl | hv'
      · exact List.mem_cons_self _ _
      · exact List.mem_cons_of_mem _ (h3 v hv')
  | discNew u hu hq =>
    have hnp : u ∉ s.pushed := fun hm => hu (h3 u hm)
    have hc0 : s.pushed.count u = 0 := List.count_eq_zero.mpr hnp
    refine ⟨fun v => ?_, fun v => ?_, fun v hv => ?_⟩
    · by_cases hvu : v = u
      · subst hvu; simp [List.count_cons, hc0]
      · have := h1 v
        simp [List.count_cons, hvu]
        omega
    · have hs := h2 v
      by_cases hvu : v = u
      · subst hvu
        simp only [List.count_append, List.count_cons, List.count_nil, List.count_singleton]
        simp [hc0] at hs ⊢
        omega
      · simp only [List.count_append, List.count_cons, List.count_nil]
        simp [hvu]
        omega
    · rcases List.mem_cons.mp hv with rfl | hv'
      · exact List.mem_cons_self _ _
      · exact List.mem_cons_of_mem _ (h3 v hv')
  | dequeue u rest hpe =>
    refine ⟨h1, fun v => ?_, h3⟩
    have hs := h2 v
    rw [hpe] at hs
    simp only [List.count_cons] at hs ⊢
    omega
  | deliver u hu =>
    refine ⟨h1, fun v => ?_, h3⟩
    have hs := h2 v
    by_cases hvu : v = u
    · subst hvu
      have hpos : 0 < s.inflight.count v := List.count_pos_iff.mpr hu
      rw [List.count_erase_self]
      simp only [List.count_cons, beq_iff_eq, if_pos rfl, eq_self_iff_true, if_true]
      omega
    · rw [List.count_erase_of_ne hvu]
      simp only [List.count_cons, beq_iff_eq]
      rw [if_neg (fun hh : u = v => hvu hh.symm)]
      omega

theorem admInv_reach (cap : Nat) (s : AdmState) (h : AdmReach cap s) : AdmInv s := by
  induction h with
  | refl => exact admInv_init cap
  | tail hst step ih => exact admInv_step step ih

theorem adm_absent_stays {u : Str} {s t : AdmState}
    (h : Relation.ReflTransGen AdmStep s t) (hseen : u ∈ s.seen)
    (hp : u ∉ s.pending) (hi : u ∉ s.inflight) (hd : u ∉ s.delivered) :
    u ∈ t.seen ∧ u ∉ t.pending ∧ u ∉ t.inflight ∧ u ∉ t.delivered := by
  induction h with
  | refl => exact ⟨hseen, hp, hi, hd⟩
  | tail hst step ih =>
    obtain ⟨i1, i2, i3, i4⟩ := ih
    cases step with
    | seedSeen v hv => exact ⟨i1, i2, i3, i4⟩
    | discSeen v hv => exact ⟨i1, i2, i3, i4⟩
    | discDrop v hv => exact ⟨List.mem_cons_of_mem _ i1, i2, i3, i4⟩
    | seedNew v hv hq =>
      refine ⟨List.mem_cons_of_mem _ i1, ?_, i3, i4⟩
      simp only [List.mem_append, List.mem_singleton]
      rintro (hmem | rfl)
      · exact i2 hmem
      · exact hv i1
    | discNew v hv hq =>
      refine ⟨List.mem_cons_of_mem _ i1, ?_, i3, i4⟩
      simp only [List.mem_append, List.mem_singleton]
      rintro (hmem | rfl)
      · exact i2 hmem
      · exact hv i1
    | dequeue v rest hpend =>
      rw [hpend] at i2
      simp only [List.mem_cons, not_or] at i2
      refine ⟨i1, i2.2, ?_, i4⟩
      simp only [List.mem_cons, not_or]
      exact ⟨i2.1, i3⟩
    | deliver v hvmem =>
      have hne : u ≠ v := fun hh => i3 (hh ▸ hvmem)
      refine ⟨i1, i2, fun hm => i3 (List.mem_of_mem_erase hm), ?_⟩
      simp only [List.mem_cons, not_or]
      exact ⟨hne, i4⟩

theorem https_not_http7 (v : Str) :
    startsWith (lit "https://" ++ v) (lit "http://") = false := rfl

theorem normalizeURL_eq (s : Str) :
    normalizeURL s =
      (if trimSpace s = [] then .error .emptyURL
       else if startsWith (trimSpace s) (lit "http") = false ∧
           containsSeq (trimSpace s) (lit "://") = true then .error .badScheme
       else
         match urlParse (coerceURL (trimSpace s)) with
         | .error e => .error (.parseFail e)
         | .ok u =>
           let u1 : GoURL := { u with forceQuery := false, rawQuery := [], fragment := [] }
           .ok (if u1.path = ['/'] then { u1 with path := [] } else u1)) := by
  unfold normalizeURL coerceURL
  by_cases h1 : trimSpace s = []
  · simp [h1]
  · by_cases h2 : startsWith (trimSpace s) (lit "http") = true
    · simp [h1, h2]
    · have h2' : startsWith (trimSpace s) (lit "http") = false := by
        revert h2; cases startsWith (trimSpace s) (lit "http") <;> simp
      by_cases h3 : containsSeq (trimSpace s) (lit "://") = true
      · simp [h1, h2', h3]
      · have h3' : containsSeq (trimSpace s) (lit "://") = false := by
          revert h3; cases containsSeq (trimSpace s) (lit "://") <;> simp
        simp [h1, h2', h3', https_not_http7]

theorem enqueueSeeds_all_ok (ctxDone : Bool) (seeds : List Str) :
    ∀ (st : QState) (q : Nat),
      (∀ r ∈ seeds, ∃ u, normalizeURL r = .ok u) →
      st.queue.length + seeds.length ≤ st.cap →
      ∃ st' n, enqueueSeeds ctxDone st seeds q = (st', .ok n) := by
  induction seeds with
  | nil => exact fun st q _ _ => ⟨st, q, rfl⟩
  | cons r rest ih =>
    intro st q hok hcap
    obtain ⟨u, hu⟩ := hok r (List.mem_cons_self _ _)
    have hrest : ∀ x ∈ rest, ∃ v, normalizeURL x = .ok v :=
      fun x hx => hok x (List.mem_cons_of_mem _ hx)
    simp only [enqueueSeeds, hu]
    by_cases hseen : st.seen.contains u.toStr = true
    · rw [if_pos hseen]
      exact ih st q hrest (by simp at hcap ⊢; omega)
    · rw [if_neg hseen]
      rw [if_pos (by simp at hcap ⊢; omega)]
      refine ih _ (q + 1) hrest ?_
      simp at hcap ⊢
      omega

theorem enqueueSeeds_first_err (ctxDone : Bool) (pre : List Str) :
    ∀ (st : QState) (q : Nat) (bad : Str) (post : List Str) (e : NormE),
      (∀ r ∈ pre, ∃ u, normalizeURL r = .ok u) →
      st.queue.length + pre.length ≤ st.cap →
      normalizeURL bad = .error e →
      ∃ st', enqueueSeeds ctxDone st (pre ++ bad :: post) q = (st', .err e) := by
  induction pre with
  | nil =>
    intro st q bad post e _ _ hbad
    refine ⟨st, ?_⟩
    simp only [List.nil_append, enqueueSeeds, hbad]
  | cons r rest ih =>
    intro st q bad post e hok hcap hbad
    obtain ⟨u, hu⟩ := hok r (List.mem_cons_self _ _)
    have hrest : ∀ x ∈ rest, ∃ v, normalizeURL x = .ok v :=
      fun x hx => hok x (List.mem_cons_of_mem _ hx)
    simp only [List.cons_append, enqueueSeeds, hu]
    by_cases hseen : st.seen.contains u.toStr = true
    · rw [if_pos hseen]
      exact ih st q bad post e hrest (by simp at hcap ⊢; omega) hbad
    · rw [if_neg hseen]
      rw [if_pos (by simp at hcap ⊢; omega)]
      refine ih _ (q + 1) bad post e hrest ?_ hbad
      simp at hcap ⊢
      omega

theorem charNat_le {a b : Char} (h : a ≤ b) : a.val.toBitVec.toNat ≤ b.val.toBitVec.toNat := by
  simpa [Char.le_def, UInt32.le_def, BitVec.le_def] using h

theorem u32Nat_le {a b : UInt32} (h : a ≤ b) : a.toBitVec.toNat ≤ b.toBitVec.toNat := by
  simpa [UInt32.le_def, BitVec.le_def] using h

theorem charNat_ne_beq (c d : Char) (hd : c.val.toBitVec.toNat ≠ d.val.toBitVec.toNat) :
    (c == d) = false := by
  rw [beq_eq_false_iff_ne]
  rintro rfl; exact hd rfl

theorem cleanChar_of_bounds (c : Char) (h1 : 32 ≤ c.val.toBitVec.toNat)
    (h2 : c.val.toBitVec.toNat ≠ 127) (h3 : c.val.toBitVec.toNat ≠ 63)
    (h4 : c.val.toBitVec.toNat ≠ 35) : cleanChar c = true := by
  simp only [cleanChar, Bool.and_eq_true, bne, Bool.not_eq_true', isCTL,
    Bool.or_eq_false_iff, decide_eq_false_iff_not, UInt32.lt_def, BitVec.lt_def]
  have e32 : (UInt32.toBitVec 32).toNat = 32 := rfl
  refine ⟨⟨⟨?_, ?_⟩, ?_⟩, ?_⟩
  · rw [e32]; omega
  · rw [beq_eq_false_iff_ne]
    intro he
    exact h2 (by rw [he]; rfl)
  · exact charNat_ne_beq c '?' (by simpa using h3)
  · exact charNat_ne_beq c '#' (by simpa using h4)

theorem schemeCharB_clean (c : Char) (h : schemeCharB c = true) :
    cleanChar c = true ∧ (c == ':') = false ∧ (c == '/') = false := by
  simp only [schemeCharB, isAlphaC, isUpperAZ, isLowerAZ, isSchemeExt, isDigitC,
    Bool.or_eq_true, Bool.and_eq_true, beq_iff_eq, decide_eq_true_eq] at h
  have hb : 32 ≤ c.val.toBitVec.toNat ∧ c.val.toBitVec.toNat ≠ 127 ∧
      c.val.toBitVec.toNat ≠ 63 ∧ c.val.toBitVec.toNat ≠ 35 ∧
      c.val.toBitVec.toNat ≠ 58 ∧ c.val.toBitVec.toNat ≠ 47 := by
    rcases h with (⟨h1, h2⟩ | ⟨h1, h2⟩) | (((⟨h1, h2⟩ | rfl) | rfl) | rfl)
    · have ha := charNat_le h1; have hbb := charNat_le h2; simp at ha hbb; omega
    · have ha := charNat_le h1; have hbb := charNat_le h2; simp at ha hbb; omega
    · have ha := charNat_le h1; have hbb := charNat_le h2; simp at ha hbb; omega
    · refine ⟨?_, ?_, ?_, ?_, ?_, ?_⟩ <;> decide
    · refine ⟨?_, ?_, ?_, ?_, ?_, ?_⟩ <;> decide
    · refine ⟨?_, ?_, ?_, ?_, ?_, ?_⟩ <;> decide
  exact ⟨cleanChar_of_bounds c hb.1 hb.2.1 hb.2.2.1 hb.2.2.2.1,
    charNat_ne_beq c ':' (by simpa using hb.2.2.2.2.1),
    charNat_ne_beq c '/' (by simpa using hb.2.2.2.2.2)⟩

theorem hostCharOK_clean (c : Char) (h : hostCharOK c = true) :
    cleanChar c = true ∧ (c == '/') = false ∧ (c == '@') = false := by
  simp only [hostCharOK, isAlphaC, isUpperAZ, isLowerAZ, isDigitC,
    List.contains_cons, List.contains_nil, Bool.or_eq_true, Bool.and_eq_true,
    beq_iff_eq, decide_eq_true_eq, Bool.or_false] at h
  have hb : 32 ≤ c.val.toBitVec.toNat ∧ c.val.toBitVec.toNat ≠ 127 ∧
      c.val.toBitVec.toNat ≠ 63 ∧ c.val.toBitVec.toNat ≠ 35 ∧
      c.val.toBitVec.toNat ≠ 47 ∧ c.val.toBitVec.toNat ≠ 64 := by
    rcases h with (((⟨h1, h2⟩ | ⟨h1, h2⟩) | ⟨h1, h2⟩) | hl) | hge
    · have ha := charNat_le h1; have hbb := charNat_le h2; simp at ha hbb; omega
    · have ha := charNat_le h1; have hbb := charNat_le h2; simp at ha hbb; omega
    · have ha := charNat_le h1; have hbb := charNat_le h2; simp at ha hbb; omega
    · rcases hl with rfl | rfl | rfl | rfl | rfl | rfl | rfl | rfl | rfl | rfl | rfl |
        rfl | rfl | rfl | rfl | rfl | rfl | rfl | rfl | rfl | rfl <;>
        refine ⟨?_, ?_, ?_, ?_, ?_, ?_⟩ <;> decide
    · have h1 := u32Nat_le hge
      have e128 : (128 : UInt32).toBitVec.toNat = 128 := rfl
      rw [e128] at h1
      omega
  exact ⟨cleanChar_of_bounds c hb.1 hb.2.1 hb.2.2.1 hb.2.2.2.1,
    charNat_ne_beq c '/' (by simpa using hb.2.2.2.2.1),
    charNat_ne_beq c '@' (by simpa using hb.2.2.2.2.2)⟩

theorem userinfoCharOK_clean (c : Char) (h : userinfoCharOK c = true) :
    cleanChar c = true ∧ (c == '/') = false := by
  simp only [userinfoCharOK, isAlphaC, isUpperAZ, isLowerAZ, isDigitC,
    List.contains_cons, List.contains_nil, Bool.or_eq_true, Bool.and_eq_true,
    beq_iff_eq, decide_eq_true_eq, Bool.or_false] at h
  have hb : 32 ≤ c.val.toBitVec.toNat ∧ c.val.toBitVec.toNat ≠ 127 ∧
      c.val.toBitVec.toNat ≠ 63 ∧ c.val.toBitVec.toNat ≠ 35 ∧
      c.val.toBitVec.toNat ≠ 47 := by
    rcases h with ((⟨h1, h2⟩ | ⟨h1, h2⟩) | ⟨h1, h2⟩) | hl
    · have ha := charNat_le h1; have hbb := charNat_le h2; simp at ha hbb; omega
    · have ha := charNat_le h1; have hbb := charNat_le h2; simp at ha hbb; omega
    · have ha := charNat_le h1; have hbb := charNat_le h2; simp at ha hbb; omega
    · rcases hl with rfl | rfl | rfl | rfl | rfl | rfl | rfl | rfl | rfl | rfl | rfl |
        rfl | rfl | rfl | rfl | rfl | rfl | rfl <;>
        refine ⟨?_, ?_, ?_, ?_, ?_⟩ <;> decide
  exact ⟨cleanChar_of_bounds c hb.1 hb.2.1 hb.2.2.1 hb.2.2.2.1,
    charNat_ne_beq c '/' (by simpa using hb.2.2.2.2)⟩

theorem isHexDigit_clean (c : Char) (h : isHexDigit c = true) :
    cleanChar c = true ∧ (c == '/') = false ∧ (c == '@') = false := by
  simp only [isHexDigit, isDigitC, Bool.or_eq_true, Bool.and_eq_true,
    decide_eq_true_eq] at h
  have hb : 32 ≤ c.val.toBitVec.toNat ∧ c.val.toBitVec.toNat ≠ 127 ∧
      c.val.toBitVec.toNat ≠ 63 ∧ c.val.toBitVec.toNat ≠ 35 ∧
      c.val.toBitVec.toNat ≠ 47 ∧ c.val.toBitVec.toNat ≠ 64 := by
    rcases h with (⟨h1, h2⟩ | ⟨h1, h2⟩) | ⟨h1, h2⟩ <;>
      (have ha := charNat_le h1; have hbb := charNat_le h2; simp at ha hbb; omega)
  exact ⟨cleanChar_of_bounds c hb.1 hb.2.1 hb.2.2.1 hb.2.2.2.1,
    charNat_ne_beq c '/' (by simpa using hb.2.2.2.2.1),
    charNat_ne_beq c '@' (by simpa using hb.2.2.2.2.2)⟩

theorem char_toNat_ofNat_valid (n : Nat) (h : n < 55296) :
    (Char.ofNat n).val.toBitVec.toNat = n := by
  have hv : n.isValidChar := Or.inl h
  rw [Char.ofNat, dif_pos hv]
  rfl

theorem charNat_le' {a b : Char} (h : a.val.toBitVec.toNat ≤ b.val.toBitVec.toNat) :
    a ≤ b := by
  simpa [Char.le_def, UInt32.le_def, BitVec.le_def] using h

theorem toLowerC_scheme (c : Char) (h : schemeCharB c = true) :
    schemeCharB (toLowerC c) = true ∧ isUpperAZ (toLowerC c) = false := by
  by_cases hu : isUpperAZ c = true
  · have h12 : 'A' ≤ c ∧ c ≤ 'Z' := by
      have := hu; simp only [isUpperAZ, Bool.and_eq_true, decide_eq_true_eq] at this
      exact this
    have ha := charNat_le h12.1; have hbb := charNat_le h12.2
    rw [show ('A'.val).toBitVec.toNat = 65 from rfl] at ha
    rw [show ('Z'.val).toBitVec.toNat = 90 from rfl] at hbb
    have htn : c.toNat = c.val.toBitVec.toNat := rfl
    have hval : (Char.ofNat (c.toNat + 32)).val.toBitVec.toNat = c.toNat + 32 :=
      char_toNat_ofNat_valid _ (by rw [htn]; omega)
    have htl : toLowerC c = Char.ofNat (c.toNat + 32) := by rw [toLowerC, if_pos hu]
    rw [htl]
    have hlow : isLowerAZ (Char.ofNat (c.toNat + 32)) = true := by
      simp only [isLowerAZ, Bool.and_eq_true, decide_eq_true_eq]
      constructor
      · refine charNat_le' ?_
        rw [show ('a'.val).toBitVec.toNat = 97 from rfl, hval, htn]; omega
      · refine charNat_le' ?_
        rw [show ('z'.val).toBitVec.toNat = 122 from rfl, hval, htn]; omega
    have hnup : isUpperAZ (Char.ofNat (c.toNat + 32)) = false := by
      rw [isUpperAZ, Bool.and_eq_false_iff]
      right
      simp only [decide_eq_false_iff_not]
      intro hcon
      have := charNat_le hcon
      rw [show ('Z'.val).toBitVec.toNat = 90 from rfl, hval, htn] at this
      omega
    exact ⟨by simp [schemeCharB, isAlphaC, hlow], hnup⟩
  · have hu' : isUpperAZ c = false := by revert hu; cases isUpperAZ c <;> simp
    have heq : toLowerC c = c := by simp [toLowerC, hu']
    rw [heq]
    exact ⟨h, hu'⟩

theorem toLowerC_id (c : Char) (h : isUpperAZ c = false) : toLowerC c = c := by
  simp [toLowerC, h]


theorem mem_cutChar_fst (c d : Char) (s : Str) (h : d ∈ (cutChar c s).1) : d ∈ s := by
  induction s with
  | nil => simpa [cutChar] using h
  | cons a t ih =>
    by_cases hac : (a == c) = true
    · simp [cutChar, hac] at h
    · simp only [cutChar, hac, Bool.false_eq_true, if_false, List.mem_cons] at h
      rcases h with rfl | h
      · exact List.mem_cons_self _ _
      · exact List.mem_cons_of_mem _ (ih h)

theorem mem_cutChar_snd (c d : Char) (s : Str) (h : d ∈ (cutChar c s).2.1) : d ∈ s := by
  induction s with
  | nil => simpa [cutChar] using h
  | cons a t ih =>
    by_cases hac : (a == c) = true
    · simp only [cutChar, hac, if_true] at h
      exact List.mem_cons_of_mem _ h
    · simp only [cutChar, hac, Bool.false_eq_true, if_false] at h
      exact List.mem_cons_of_mem _ (ih h)

theorem cutChar_fst_not_mem (c : Char) (s : Str) : c ∉ (cutChar c s).1 := by
  induction s with
  | nil => simp [cutChar]
  | cons a t ih =>
    by_cases hac : (a == c) = true
    · simp [cutChar, hac]
    · simp only [cutChar, hac, Bool.false_eq_true, if_false, List.mem_cons, not_or]
      refine ⟨?_, ih⟩
      intro hh
      rw [hh] at hac
      simp at hac

theorem cutChar_decomp (c : Char) (s : Str) :
    s = (cutChar c s).1 ++ (if (cutChar c s).2.2 then c :: (cutChar c s).2.1 else []) := by
  induction s with
  | nil => rfl
  | cons a t ih =>
    by_cases hac : (a == c) = true
    · have : a = c := by simpa using hac
      subst this
      simp [cutChar]
    · simp only [cutChar, hac, Bool.false_eq_true, if_false, List.cons_append,
        List.cons.injEq]
      exact ⟨trivial, ih⟩

theorem clean_append (a b : Str) : clean (a ++ b) = (clean a && clean b) := by
  simp [clean, List.all_append]

theorem clean_of (s w : Str) (hsub : ∀ c, c ∈ s → c ∈ w) (hctl : w.any isCTL = false)
    (hhash : '#' ∉ w) (hq : '?' ∉ s) : clean s = true := by
  rw [clean, List.all_eq_true]
  intro c hc
  rw [cleanChar, Bool.and_eq_true, Bool.and_eq_true]
  refine ⟨⟨?_, ?_⟩, ?_⟩
  · rw [Bool.not_eq_true']
    rw [List.any_eq_false] at hctl
    simp only [Bool.not_eq_true] at hctl
    exact hctl c (hsub c hc)
  · rw [bne_iff_ne]
    rintro rfl
    exact hq hc
  · rw [bne_iff_ne]
    rintro rfl
    exact hhash (hsub _ hc)

theorem clean_not_mem (s : Str) (h : clean s = true) :
    '#' ∉ s ∧ '?' ∉ s ∧ s.any isCTL = false := by
  rw [clean, List.all_eq_true] at h
  refine ⟨?_, ?_, ?_⟩
  · intro hm
    have := h _ hm
    simp [cleanChar] at this
  · intro hm
    have := h _ hm
    simp [cleanChar] at this
  · rw [List.any_eq_false]
    intro c hc
    have := h _ hc
    rw [cleanChar, Bool.and_eq_true, Bool.and_eq_true] at this
    simpa using this.1.1

theorem dropLast_no_count_one (c : Char) (s : Str) (hl : s.getLast? = some c)
    (hc : s.count c = 1) : c ∉ s.dropLast := by
  have hne : s ≠ [] := by rintro rfl; simp at hl
  have hs : s = s.dropLast ++ [c] := by
    conv_lhs => rw [← List.dropLast_append_getLast hne]
    rw [List.getLast?_eq_getLast s hne] at hl
    rw [Option.some.injEq] at hl
    rw [hl]
  intro hm
  rw [hs, List.count_append] at hc
  have h1 : List.count c [c] = 1 := by simp
  have h2 : 1 ≤ s.dropLast.count c := List.one_le_count_iff.mpr hm
  omega

theorem getSchemeLoop_decomp (orig : Str) :
    ∀ (input acc sc r : Str), getSchemeLoop orig input acc = .ok (sc, r) →
      (sc = [] ∧ r = orig) ∨
        (∃ mid, input = mid ++ ':' :: r ∧ sc = acc ++ mid ∧
          ∀ c, c ∈ mid → schemeCharB c = true) := by
  intro input
  induction input with
  | nil =>
    intro acc sc r h
    simp only [getSchemeLoop, Except.ok.injEq, Prod.mk.injEq] at h
    exact Or.inl ⟨h.1.symm, h.2.symm⟩
  | cons c rest ih =>
    intro acc sc r h
    simp only [getSchemeLoop] at h
    by_cases h1 : (isAlphaC c || isSchemeExt c) = true
    · rw [if_pos h1] at h
      rcases ih _ _ _ h with hl | ⟨mid, hm1, hm2, hm3⟩
      · exact Or.inl hl
      · right
        refine ⟨c :: mid, by rw [hm1, List.cons_append], by rw [hm2]; simp, ?_⟩
        intro d hd
        rcases List.mem_cons.mp hd with rfl | hd
        · exact h1
        · exact hm3 d hd
    · rw [if_neg h1] at h
      by_cases h2 : (c == ':') = true
      · rw [if_pos h2] at h
        simp only [Except.ok.injEq, Prod.mk.injEq] at h
        right
        refine ⟨[], ?_, by rw [← h.1]; simp, by simp⟩
        have hc : c = ':' := by simpa using h2
        rw [hc, List.nil_append, h.2]
      · rw [if_neg h2] at h
        simp only [Except.ok.injEq, Prod.mk.injEq] at h
        exact Or.inl ⟨h.1.symm, h.2.symm⟩

theorem getSchemeLoop_isOk (orig : Str) :
    ∀ (input acc : Str), ∃ p, getSchemeLoop orig input acc = .ok p := by
  intro input
  induction input with
  | nil => exact fun acc => ⟨([], orig), rfl⟩
  | cons c rest ih =>
    intro acc
    simp only [getSchemeLoop]
    by_cases h1 : (isAlphaC c || isSchemeExt c) = true
    · rw [if_pos h1]; exact ih _
    · rw [if_neg h1]
      by_cases h2 : (c == ':') = true
      · rw [if_pos h2]; exact ⟨(acc, rest), rfl⟩
      · rw [if_neg h2]; exact ⟨([], orig), rfl⟩

theorem getScheme_decomp (s sc r : Str) (h : getScheme s = .ok (sc, r)) :
    (sc = [] ∧ r = s) ∨
      (∃ a t, sc = a :: t ∧ isAlphaC a = true ∧ (∀ c, c ∈ t → schemeCharB c = true) ∧
        s = sc ++ ':' :: r) := by
  cases s with
  | nil =>
    simp only [getScheme, Except.ok.injEq, Prod.mk.injEq] at h
    exact Or.inl ⟨h.1.symm, h.2.symm⟩
  | cons c rest =>
    simp only [getScheme] at h
    by_cases h1 : isAlphaC c = true
    · rw [if_pos h1] at h
      rcases getSchemeLoop_decomp _ _ _ _ _ h with ⟨rfl, rfl⟩ | ⟨mid, hm1, hm2, hm3⟩
      · exact Or.inl ⟨rfl, rfl⟩
      · right
        refine ⟨c, mid, by rw [hm2]; rfl, h1, hm3, ?_⟩
        rw [hm2, hm1]
        rfl
    · rw [if_neg h1] at h
      by_cases h2 : (c == ':') = true
      · rw [if_pos h2] at h
        exact Except.noConfusion h
      · rw [if_neg h2] at h
        simp only [Except.ok.injEq, Prod.mk.injEq] at h
        exact Or.inl ⟨h.1.symm, h.2.symm⟩

theorem getSchemeLoop_append (orig : Str) :
    ∀ (m r acc : Str), (∀ c, c ∈ m → schemeCharB c = true) →
      getSchemeLoop orig (m ++ ':' :: r) acc = .ok (acc ++ m, r) := by
  intro m
  induction m with
  | nil =>
    intro r acc _
    simp only [List.nil_append, getSchemeLoop,
      show (isAlphaC ':' || isSchemeExt ':') = false from by decide, Bool.false_eq_true,
      if_false, show (':' == ':') = true from by decide, if_true, List.append_nil]
  | cons c m ih =>
    intro r acc hm
    have hc : (isAlphaC c || isSchemeExt c) = true := hm c (List.mem_cons_self _ _)
    simp only [List.cons_append, getSchemeLoop, hc, if_true, List.append_eq]
    rw [ih r (acc ++ [c]) (fun d hd => hm d (List.mem_cons_of_mem _ hd))]
    simp

theorem getScheme_of_scheme (a : Char) (t r : Str) (ha : isAlphaC a = true)
    (ht : ∀ c, c ∈ t → schemeCharB c = true) :
    getScheme ((a :: t) ++ ':' :: r) = .ok (a :: t, r) := by
  rw [List.cons_append]
  simp only [getScheme, ha, if_true]
  rw [getSchemeLoop_append _ _ _ _ ht]
  simp

theorem parseHost_ret (a hh : Str) (hp : parseHost a = .ok hh) : hh = a := by
  unfold parseHost at hp
  repeat' split at hp
  all_goals first
  | exact Except.noConfusion hp
  | (injection hp with h1; exact h1.symm)

theorem validUserinfo_chars (s : Str) (h : validUserinfo s = true) :
    ∀ c, c ∈ s → cleanChar c = true ∧ (c == '/') = false := by
  rw [validUserinfo, List.all_eq_true] at h
  exact fun c hc => userinfoCharOK_clean c (h c hc)

theorem validateHostBody_chars (s : Str) (h : validateHostBody s = true) :
    ∀ c, c ∈ s → cleanChar c = true ∧ (c == '/') = false ∧ (c == '@') = false := by
  induction s using validateHostBody.induct with
  | case1 => intro c hc; simp at hc
  | case2 => simp [validateHostBody] at h
  | case3 => simp [validateHostBody] at h
  | case4 a b rest ih =>
    simp only [validateHostBody, Bool.and_eq_true] at h
    intro c hc
    rcases List.mem_cons.mp hc with rfl | hc
    · exact ⟨by decide, by decide, by decide⟩
    · rcases List.mem_cons.mp hc with rfl | hc
      · exact isHexDigit_clean _ h.1.1
      · rcases List.mem_cons.mp hc with rfl | hc
        · exact isHexDigit_clean _ h.1.2
        · exact ih h.2 _ hc
  | case5 c rest h1 h2 h3 ih =>
    simp only [validateHostBody, Bool.and_eq_true] at h
    intro d hd
    rcases List.mem_cons.mp hd with rfl | hd
    · exact hostCharOK_clean d h.1
    · exact ih h.2 d hd

theorem parseAuthority_ok (a : Str) (user : Option Str) (host : Str)
    (hp : parseAuthority a = .ok (user, host)) :
    parseHost host = .ok host ∧
      ∀ ui, user = some ui → validUserinfo ui = true ∧ validEscapes ui = true := by
  unfold parseAuthority at hp
  cases hcut : cutLast '@' a with
  | none =>
    rw [hcut] at hp
    cases hph : parseHost a with
    | error e => rw [hph] at hp; exact Except.noConfusion hp
    | ok hh =>
      rw [hph] at hp
      simp only [Except.ok.injEq, Prod.mk.injEq] at hp
      have hha : hh = a := parseHost_ret _ _ hph
      refine ⟨?_, ?_⟩
      · rw [← hp.2, hha]
        rw [hha] at hph
        exact hph
      · intro ui hui
        rw [← hp.1] at hui
        exact Option.noConfusion hui
  | some p =>
    obtain ⟨ui0, hostPart⟩ := p
    rw [hcut] at hp
    simp only at hp
    cases hph : parseHost hostPart with
    | error e => rw [hph] at hp; exact Except.noConfusion hp
    | ok hh =>
      rw [hph] at hp
      simp only at hp
      by_cases hv : (validUserinfo ui0 && validEscapes ui0) = true
      · rw [if_pos hv] at hp
        simp only [Except.ok.injEq, Prod.mk.injEq] at hp
        have hha : hh = hostPart := parseHost_ret _ _ hph
        rw [Bool.and_eq_true] at hv
        refine ⟨?_, ?_⟩
        · rw [← hp.2, hha]
          rw [hha] at hph
          exact hph
        · intro ui hui
          rw [← hp.1] at hui
          rw [Option.some.injEq] at hui
          rw [← hui]
          exact hv
      · rw [if_neg hv] at hp
        exact Except.noConfusion hp

theorem schemeChars_clean (s : Str) (h : ∀ c, c ∈ s → schemeCharB c = true) :
    clean s = true ∧ ':' ∉ s ∧ '/' ∉ s := by
  refine ⟨?_, ?_, ?_⟩
  · rw [clean, List.all_eq_true]
    exact fun c hc => (schemeCharB_clean c (h c hc)).1
  · intro hm
    have := (schemeCharB_clean _ (h _ hm)).2.1
    simp at this
  · intro hm
    have := (schemeCharB_clean _ (h _ hm)).2.2
    simp at this

theorem scheme_http_pre (a : Char) (t r s : Str) (hs : s = (a :: t) ++ ':' :: r)
    (h : startsWith s (lit "http") = true) : startsWith (a :: t) (lit "http") = true := by
  have hlit : lit "http" = ['h', 't', 't', 'p'] := rfl
  subst hs
  rcases t with _ | ⟨b, _ | ⟨c2, _ | ⟨d, t'⟩⟩⟩
  · rw [hlit] at h
    simp only [List.cons_append, List.nil_append, startsWith, Bool.and_eq_true,
      beq_iff_eq] at h
    exact absurd h.2.1 (by decide)
  · rw [hlit] at h
    simp only [List.cons_append, List.nil_append, startsWith, Bool.and_eq_true,
      beq_iff_eq] at h
    exact absurd h.2.2.1 (by decide)
  · rw [hlit] at h
    simp only [List.cons_append, List.nil_append, startsWith, Bool.and_eq_true,
      beq_iff_eq] at h
    exact absurd h.2.2.2.1 (by decide)
  · rw [hlit] at h ⊢
    simp only [List.cons_append, startsWith, Bool.and_eq_true, beq_iff_eq] at h ⊢
    exact ⟨h.1, h.2.1, h.2.2.1, h.2.2.2.1, trivial⟩

theorem startsWith_cutChar_fst (x : Char) (p s : Str) (hx : x ∉ p)
    (h : startsWith s p = true) : startsWith (cutChar x s).1 p = true := by
  obtain ⟨rr, rfl⟩ := (startsWith_iff _ _).mp h
  rw [cutChar_append_left x p rr hx]
  exact startsWith_append_left _ _ _ (by
    rw [startsWith_iff]
    exact ⟨[], by simp⟩)

theorem startsWith_dropLast (x : Char) (p s : Str) (hx : x ∉ p)
    (hl : s.getLast? = some x) (h : startsWith s p = true) :
    startsWith s.dropLast p = true := by
  obtain ⟨rr, rfl⟩ := (startsWith_iff _ _).mp h
  cases hr : rr with
  | nil =>
    rw [hr, List.append_nil] at hl
    exact absurd (List.mem_of_getLast?_eq_some hl) hx
  | cons y ys =>
    rw [show (p ++ y :: ys).dropLast = p ++ (y :: ys).dropLast from
      List.dropLast_append_of_ne_nil _ (by simp)]
    exact startsWith_append_left _ _ _ (by rw [startsWith_iff]; exact ⟨[], by simp⟩)

theorem startsWith_refl (p : Str) : startsWith p p = true := by
  rw [startsWith_iff]; exact ⟨[], by simp⟩

theorem coerceURL_pre (v : Str) :
    startsWith (coerceURL v) (lit "http") = true ∧
      startsWith (coerceURL v) (lit "http://") = false := by
  have hh : startsWith (lit "https://") (lit "http") = true := by decide
  rw [coerceURL]
  by_cases h1 : startsWith v (lit "http") = true
  · rw [if_pos h1]
    by_cases h2 : startsWith v (lit "http://") = true
    · rw [if_pos h2]
      exact ⟨startsWith_append_left _ _ _ hh, https_not_http7 _⟩
    · rw [if_neg h2]
      exact ⟨h1, by revert h2; cases startsWith v (lit "http://") <;> simp⟩
  · rw [if_neg h1]
    exact ⟨startsWith_append_left _ _ _ hh, https_not_http7 _⟩

theorem startsWith_cons (c : Char) (t : Str) (p : Char) (ps : Str) :
    startsWith (c :: t) (p :: ps) = ((c == p) && startsWith t ps) := rfl

theorem http_slash_false (s : Str) (h1 : startsWith s (lit "http") = true)
    (h2 : startsWith s (lit "/") = true) : False := by
  cases s with
  | nil => exact absurd h1 (by decide)
  | cons c t =>
    rw [show lit "http" = 'h' :: lit "ttp" from rfl, startsWith_cons,
      Bool.and_eq_true] at h1
    rw [show lit "/" = '/' :: ([] : Str) from rfl, startsWith_cons,
      Bool.and_eq_true] at h2
    have e1 : c = 'h' := by simpa using h1.1
    have e2 : c = '/' := by simpa using h2.1
    rw [e1] at e2
    exact absurd e2 (by decide)

theorem head_ne_slash (s : Str) (hne : s ≠ []) (h : startsWith s (lit "/") = false) :
    s.head? ≠ some '/' := by
  cases s with
  | nil => exact absurd rfl hne
  | cons c t =>
    rw [show lit "/" = '/' :: ([] : Str) from rfl, startsWith_cons] at h
    rw [Bool.and_eq_false_iff] at h
    intro hh
    rw [List.head?_cons, Option.some.injEq] at hh
    rcases h with h | h
    · rw [hh] at h; simp at h
    · exact absurd h (by simp [startsWith])

theorem lowerSchemeOK_ne_nil (sc : Str) (h : lowerSchemeOK sc = true) : sc ≠ [] := by
  intro he
  rw [he] at h
  exact absurd h (by decide)

theorem lowerSchemeOK_http_pre (sc : Str) (h : lowerSchemeOK sc = true) :
    startsWith sc (lit "http") = true := by
  rw [lowerSchemeOK, Bool.and_eq_true] at h
  exact h.1

theorem clean_mem (s : Str) (c : Char) (h : clean s = true) (hc : c ∈ s) :
    cleanChar c = true := by
  rw [clean, List.all_eq_true] at h
  exact h c hc

theorem startsWith_two_slash (c : Char) (t : Str)
    (h : startsWith (c :: t) (lit "/") = false) :
    startsWith (c :: t) (lit "//") = false := by
  rw [show lit "/" = '/' :: ([] : Str) from rfl, startsWith_cons] at h
  rw [show lit "//" = '/' :: lit "/" from rfl, startsWith_cons]
  rw [Bool.and_eq_false_iff] at h ⊢
  rcases h with h | h
  · exact Or.inl h
  · exact absurd h (by simp [startsWith])


theorem parsePre_tail_wf (sc rst rq : Str) (fq : Bool) (u : GoURL)
    (hp : (if ¬ startsWith rst (lit "/") = true then
        if sc ≠ [] then
          Except.ok { scheme := sc, opq := rst, user := none, host := [], path := [], omitHost := false, forceQuery := fq, rawQuery := rq, fragment := [] }
        else
          if List.contains (cutChar '/' rst).1 ':' = true then
            Except.error ParseE.colonSeg
          else
            if validEscapes rst = true then
              Except.ok { scheme := sc, opq := [], user := none, host := [], path := rst, omitHost := false, forceQuery := fq, rawQuery := rq, fragment := [] }
            else Except.error ParseE.badEscape
      else
        if (sc ≠ [] ∨ ¬ startsWith rst (lit "///") = true) ∧
            startsWith rst (lit "//") = true then
          match parseAuthority (cutChar '/' (List.drop 2 rst)).1 with
          | Except.error e => Except.error e
          | Except.ok (user, host) =>
            if validEscapes (if (cutChar '/' (List.drop 2 rst)).2.2 = true then
                  '/' :: (cutChar '/' (List.drop 2 rst)).2.1 else []) = true then
              Except.ok { scheme := sc, opq := [], user := user, host := host, path := if (cutChar '/' (List.drop 2 rst)).2.2 = true then '/' :: (cutChar '/' (List.drop 2 rst)).2.1 else [], omitHost := false, forceQuery := fq, rawQuery := rq, fragment := [] }
            else Except.error ParseE.badEscape
        else
          if validEscapes rst = true then
            Except.ok { scheme := sc, opq := [], user := none, host := [], path := rst, omitHost := decide (sc ≠ [] ∧ startsWith rst (lit "/") = true), forceQuery := fq, rawQuery := rq, fragment := [] }
          else Except.error ParseE.badEscape) = Except.ok u)
    (hclean : clean rst = true)
    (hsc : (sc = [] ∧ startsWith rst (lit "http") = true) ∨ lowerSchemeOK sc = true)
    (hns : sc = lit "http" → startsWith rst (lit "//") = false) :
    PreWF u := by
  by_cases hsl : startsWith rst (lit "/") = true
  · -- leading slash: authority or omit-host branch
    rw [if_neg (fun hc => hc hsl)] at hp
    have hlow : lowerSchemeOK sc = true := by
      rcases hsc with ⟨hsc0, hpre⟩ | hlow
      · exact (http_slash_false rst hpre hsl).elim
      · exact hlow
    have hscne : sc ≠ [] := lowerSchemeOK_ne_nil sc hlow
    by_cases hauth : (sc ≠ [] ∨ ¬ startsWith rst (lit "///") = true) ∧
        startsWith rst (lit "//") = true
    · rw [if_pos hauth] at hp
      cases hpa : parseAuthority (cutChar '/' (List.drop 2 rst)).1 with
      | error e => rw [hpa] at hp; exact Except.noConfusion hp
      | ok pr =>
        obtain ⟨user, host⟩ := pr
        rw [hpa] at hp
        simp only at hp
        by_cases hesc : validEscapes (if (cutChar '/' (List.drop 2 rst)).2.2 = true then
            '/' :: (cutChar '/' (List.drop 2 rst)).2.1 else []) = true
        · rw [if_pos hesc] at hp
          rw [Except.ok.injEq] at hp
          subst hp
          obtain ⟨hph, hu⟩ := parseAuthority_ok _ _ _ hpa
          have hneq : sc ≠ lit "http" := by
            intro he
            rw [hns he] at hauth
            exact absurd hauth.2 (by simp)
          by_cases hfound : (cutChar '/' (List.drop 2 rst)).2.2 = true
          · rw [if_pos hfound] at hesc ⊢
            have hpclean : clean ('/' :: (cutChar '/' (List.drop 2 rst)).2.1) = true := by
              rw [clean, List.all_eq_true]
              intro c hc
              rcases List.mem_cons.mp hc with rfl | hc
              · decide
              · exact clean_mem rst c hclean
                  (List.mem_of_mem_drop (mem_cutChar_snd _ _ _ hc))
            have hpsl : startsWith ('/' :: (cutChar '/' (List.drop 2 rst)).2.1)
                (lit "/") = true := by
              rw [show lit "/" = '/' :: ([] : Str) from rfl, startsWith_cons]
              simp [startsWith]
            refine ⟨hpclean, hesc, Or.inr ⟨hlow, Or.inr (Or.inr (Or.inr
              ⟨rfl, rfl, hph, hu, Or.inr hpsl, Or.inr (Or.inr (by simp)), hneq⟩))⟩⟩
          · rw [if_neg hfound] at hesc ⊢
            by_cases hdeg : host = [] ∧ user = none
            · exact ⟨rfl, rfl, Or.inr ⟨hlow, Or.inr (Or.inl ⟨rfl, hdeg.1, hdeg.2, rfl⟩)⟩⟩
            · have hor : host ≠ [] ∨ user.isSome = true := by
                by_cases hh : host = []
                · right
                  rw [Option.isSome_iff_ne_none]
                  intro hn
                  exact hdeg ⟨hh, hn⟩
                · exact Or.inl hh
              refine ⟨rfl, rfl, Or.inr ⟨hlow, Or.inr (Or.inr (Or.inr
                ⟨rfl, rfl, hph, hu, Or.inl rfl, ?_, hneq⟩))⟩⟩
              rcases hor with h | h
              · exact Or.inl h
              · exact Or.inr (Or.inl h)
        · rw [if_neg hesc] at hp
          exact Except.noConfusion hp
    · rw [if_neg hauth] at hp
      by_cases hesc : validEscapes rst = true
      · rw [if_pos hesc] at hp
        rw [Except.ok.injEq] at hp
        subst hp
        have hss : startsWith rst (lit "//") = false := by
          by_cases hss0 : startsWith rst (lit "//") = true
          · exact absurd ⟨Or.inl hscne, hss0⟩ hauth
          · revert hss0; cases startsWith rst (lit "//") <;> simp
        refine ⟨hclean, hesc, Or.inr ⟨hlow, Or.inr (Or.inr (Or.inl
          ⟨rfl, rfl, rfl, ?_, hsl, hss⟩))⟩⟩
        exact decide_eq_true ⟨hscne, hsl⟩
      · rw [if_neg hesc] at hp
        exact Except.noConfusion hp
  · -- no leading slash: opaque or schemeless path
    have hsl' : startsWith rst (lit "/") = false := by
      revert hsl; cases startsWith rst (lit "/") <;> simp
    rw [if_pos (by rw [hsl']; simp)] at hp
    by_cases hsc0 : sc = []
    · subst hsc0
      rw [if_neg (fun hh => hh rfl)] at hp
      have hpre : startsWith rst (lit "http") = true := by
        rcases hsc with ⟨_, hpre⟩ | hlow
        · exact hpre
        · exact absurd hlow (by decide)
      by_cases hcol : List.contains (cutChar '/' rst).1 ':' = true
      · rw [if_pos hcol] at hp
        exact Except.noConfusion hp
      · rw [if_neg hcol] at hp
        by_cases hesc : validEscapes rst = true
        · rw [if_pos hesc] at hp
          rw [Except.ok.injEq] at hp
          subst hp
          refine ⟨hclean, hesc, Or.inl ⟨rfl, rfl, rfl, rfl, rfl, ?_, hpre, ?_⟩⟩
          · intro he
            have he' : rst = [] := he
            rw [he'] at hpre
            exact absurd hpre (by decide)
          · revert hcol; cases List.contains (cutChar '/' rst).1 ':' <;> simp
        · rw [if_neg hesc] at hp
          exact Except.noConfusion hp
    · rw [if_pos hsc0] at hp
      rw [Except.ok.injEq] at hp
      subst hp
      have hlow : lowerSchemeOK sc = true := by
        rcases hsc with ⟨he, _⟩ | hlow
        · exact absurd he hsc0
        · exact hlow
      by_cases hrst : rst = []
      · subst hrst
        exact ⟨rfl, rfl, Or.inr ⟨hlow, Or.inr (Or.inl ⟨rfl, rfl, rfl, rfl⟩)⟩⟩
      · refine ⟨rfl, rfl, Or.inr ⟨hlow, Or.inl
          ⟨hrst, head_ne_slash rst hrst hsl', hclean, rfl, rfl, rfl, rfl⟩⟩⟩

theorem startsWith_append_both (p s q : Str) :
    startsWith (p ++ s) (p ++ q) = startsWith s q := by
  induction p with
  | nil => rfl
  | cons c cs ih =>
    rw [List.cons_append, List.cons_append, startsWith_cons, ih]
    simp

theorem startsWith_false_of_pre (s p q tail : Str) (hsp : s = p ++ tail)
    (h : startsWith s q = false) : startsWith p q = false := by
  by_cases hx : startsWith p q = true
  · have h1 := startsWith_append_left p tail q hx
    rw [← hsp] at h1
    rw [h1] at h
    exact Bool.noConfusion h
  · revert hx; cases startsWith p q <;> simp

theorem lowerSchemeOK_of (a : Char) (t : Str) (ha : isAlphaC a = true)
    (ht : ∀ c, c ∈ t → schemeCharB c = true)
    (hpre : startsWith (a :: t) (lit "http") = true) :
    lowerSchemeOK (toLowerStr (a :: t)) = true := by
  rw [lowerSchemeOK, Bool.and_eq_true]
  constructor
  · obtain ⟨e, hee⟩ := (startsWith_iff _ _).mp hpre
    rw [hee]
    rw [show toLowerStr (lit "http" ++ e) = toLowerStr (lit "http") ++ toLowerStr e from
      List.map_append _ _ _]
    rw [show toLowerStr (lit "http") = lit "http" from rfl]
    exact startsWith_append_left _ _ _ (startsWith_refl _)
  · rw [List.all_eq_true]
    intro c hc
    rw [toLowerStr] at hc
    obtain ⟨d, hd, rfl⟩ := List.mem_map.mp hc
    have hds : schemeCharB d = true := by
      rcases List.mem_cons.mp hd with rfl | hd
      · rw [schemeCharB, Bool.or_eq_true]; exact Or.inl ha
      · exact ht d hd
    obtain ⟨h1, h2⟩ := toLowerC_scheme d hds
    rw [Bool.and_eq_true, h1, h2]
    exact ⟨rfl, rfl⟩

theorem scheme_http_imp (a : Char) (t rest0 : Str)
    (hpre : startsWith (a :: t) (lit "http") = true)
    (hnosl : startsWith ((a :: t) ++ ':' :: rest0) (lit "http://") = false)
    (he : toLowerStr (a :: t) = lit "http") :
    startsWith rest0 (lit "//") = false := by
  obtain ⟨e, hee⟩ := (startsWith_iff _ _).mp hpre
  have hlen : e = [] := by
    have l1 : (a :: t).length = (lit "http").length := by
      rw [← he]
      rw [toLowerStr, List.length_map]
    rw [hee, List.length_append] at l1
    have : e.length = 0 := by omega
    exact List.eq_nil_of_length_eq_zero this
  rw [hlen, List.append_nil] at hee
  rw [hee] at hnosl
  have h2 : startsWith (lit "http:" ++ rest0) (lit "http:" ++ lit "//") = false := hnosl
  rw [startsWith_append_both] at h2
  exact h2

theorem parsePre_wf (raw : Str) (u : GoURL) (hp : parsePre raw = .ok u)
    (hhttp : startsWith raw (lit "http") = true)
    (hnosl : startsWith raw (lit "http://") = false)
    (hhash : '#' ∉ raw) :
    PreWF u := by
  have hstar : raw ≠ lit "*" := by
    intro he; rw [he] at hhttp; exact absurd hhttp (by decide)
  rw [parsePre] at hp
  by_cases hctl : raw.any isCTL = true
  · rw [if_pos hctl] at hp
    exact Except.noConfusion hp
  have hctl' : raw.any isCTL = false := by
    revert hctl; cases raw.any isCTL <;> simp
  rw [hctl'] at hp
  simp only [Bool.false_eq_true, if_false] at hp
  rw [if_neg hstar] at hp
  cases hg : getScheme raw with
  | error e => rw [hg] at hp; exact Except.noConfusion hp
  | ok pr =>
    obtain ⟨sc0, rest0⟩ := pr
    rw [hg] at hp
    simp only at hp
    rcases getScheme_decomp raw sc0 rest0 hg with ⟨rfl, rfl⟩ | ⟨a, t, rfl, ha, ht, hs⟩
    · -- no scheme: the input is rest0 itself
      simp only [toLowerStr, List.map_nil] at hp
      rcases Decidable.em (rest0.getLast? = some '?' ∧ rest0.count '?' = 1) with hq | hq
      · rw [if_pos hq] at hp
        simp only at hp
        obtain ⟨ys, hys⟩ := List.getLast?_eq_some_iff.mp hq.1
        have hdl : rest0.dropLast = ys := by rw [hys]; exact List.dropLast_concat
        have hnq : '?' ∉ rest0.dropLast := dropLast_no_count_one _ _ hq.1 hq.2
        have hsub : ∀ c, c ∈ rest0.dropLast → c ∈ rest0 := by
          intro c hc
          rw [hdl] at hc
          rw [hys]
          exact List.mem_append_left _ hc
        have hclean : clean rest0.dropLast = true := clean_of _ rest0 hsub hctl' hhash hnq
        have hpre : startsWith rest0.dropLast (lit "http") = true :=
          startsWith_dropLast '?' _ _ (by decide) hq.1 hhttp
        exact parsePre_tail_wf [] rest0.dropLast [] true u hp hclean (Or.inl ⟨rfl, hpre⟩)
          (fun he => absurd he (by decide))
      · rw [if_neg hq] at hp
        simp only at hp
        have hnq : '?' ∉ (cutChar '?' rest0).1 := cutChar_fst_not_mem _ _
        have hsub : ∀ c, c ∈ (cutChar '?' rest0).1 → c ∈ rest0 :=
          fun c hc => mem_cutChar_fst _ _ _ hc
        have hclean : clean (cutChar '?' rest0).1 = true :=
          clean_of _ rest0 hsub hctl' hhash hnq
        have hpre : startsWith (cutChar '?' rest0).1 (lit "http") = true :=
          startsWith_cutChar_fst '?' _ _ (by decide) hhttp
        exact parsePre_tail_wf [] (cutChar '?' rest0).1 _ false u hp hclean
          (Or.inl ⟨rfl, hpre⟩) (fun he => absurd he (by decide))
    · -- scheme present: raw = (a :: t) ++ ':' :: rest0
      subst hs
      have hsc0http : startsWith (a :: t) (lit "http") = true :=
        scheme_http_pre a t rest0 _ rfl hhttp
      have hlowOK : lowerSchemeOK (toLowerStr (a :: t)) = true :=
        lowerSchemeOK_of a t ha ht hsc0http
      have hmemraw : ∀ c, c ∈ rest0 → c ∈ (a :: t) ++ ':' :: rest0 := by
        intro c hc
        exact List.mem_append_right _ (List.mem_cons_of_mem _ hc)
      rcases Decidable.em (rest0.getLast? = some '?' ∧ rest0.count '?' = 1) with hq | hq
      · rw [if_pos hq] at hp
        simp only at hp
        obtain ⟨ys, hys⟩ := List.getLast?_eq_some_iff.mp hq.1
        have hdl : rest0.dropLast = ys := by rw [hys]; exact List.dropLast_concat
        have hnq : '?' ∉ rest0.dropLast := dropLast_no_count_one _ _ hq.1 hq.2
        have hsub : ∀ c, c ∈ rest0.dropLast → c ∈ (a :: t) ++ ':' :: rest0 := by
          intro c hc
          refine hmemraw c ?_
          rw [hdl] at hc
          rw [hys]
          exact List.mem_append_left _ hc
        have hclean : clean rest0.dropLast = true :=
          clean_of _ _ hsub hctl' hhash hnq
        have hnsx : toLowerStr (a :: t) = lit "http" →
            startsWith rest0.dropLast (lit "//") = false := by
          intro he
          have h0 := scheme_http_imp a t rest0 hsc0http hnosl he
          refine startsWith_false_of_pre rest0 _ _ ['?'] ?_ h0
          rw [hdl, ← hys]
        exact parsePre_tail_wf (toLowerStr (a :: t)) rest0.dropLast [] true u hp hclean
          (Or.inr hlowOK) hnsx
      · rw [if_neg hq] at hp
        simp only at hp
        have hnq : '?' ∉ (cutChar '?' rest0).1 := cutChar_fst_not_mem _ _
        have hsub : ∀ c, c ∈ (cutChar '?' rest0).1 → c ∈ (a :: t) ++ ':' :: rest0 :=
          fun c hc => hmemraw c (mem_cutChar_fst _ _ _ hc)
        have hclean : clean (cutChar '?' rest0).1 = true :=
          clean_of _ _ hsub hctl' hhash hnq
        have hnsx : toLowerStr (a :: t) = lit "http" →
            startsWith (cutChar '?' rest0).1 (lit "//") = false := by
          intro he
          have h0 := scheme_http_imp a t rest0 hsc0http hnosl he
          exact startsWith_false_of_pre rest0 _ _ _ (cutChar_decomp '?' rest0) h0
        exact parsePre_tail_wf (toLowerStr (a :: t)) (cutChar '?' rest0).1 _ false u hp
          hclean (Or.inr hlowOK) hnsx

theorem preWF_fields (v w : GoURL) (hwf : PreWF v)
    (h1 : w.scheme = v.scheme) (h2 : w.opq = v.opq) (h3 : w.user = v.user)
    (h4 : w.host = v.host) (h5 : w.path = v.path) (h6 : w.omitHost = v.omitHost) :
    PreWF w := by
  unfold PreWF at hwf ⊢
  rw [h1, h2, h3, h4, h5, h6]
  exact hwf

theorem preWF_collapse (v w : GoURL) (hwf : PreWF v) (hcol : v.path = ['/'])
    (h1 : w.scheme = v.scheme) (h2 : w.opq = v.opq) (h3 : w.user = v.user)
    (h4 : w.host = v.host) (h5 : w.path = []) (h6 : w.omitHost = v.omitHost) :
    PreWF w := by
  obtain ⟨hc, hv, hsh⟩ := hwf
  unfold PreWF
  rw [h1, h2, h3, h4, h5, h6]
  refine ⟨rfl, rfl, ?_⟩
  rcases hsh with ⟨_, _, _, _, _, _, hzpre, _⟩ | ⟨hlow, hsh⟩
  · rw [hcol] at hzpre
    exact absurd hzpre (by decide)
  · right
    refine ⟨hlow, ?_⟩
    rcases hsh with ⟨_, _, _, _, _, hpO, _⟩ | ⟨_, _, _, hpE⟩ |
      ⟨ho1, ho2, ho3, _, _, _⟩ | ⟨ha1, ha2, hph, hu, _, hdisj, hne⟩
    · exact absurd (hcol.symm.trans hpO) (by decide)
    · exact absurd (hcol.symm.trans hpE) (by decide)
    · exact Or.inr (Or.inl ⟨ho1, ho2, ho3, rfl⟩)
    · by_cases hdeg : v.host = [] ∧ v.user = none
      · exact Or.inr (Or.inl ⟨ha1, hdeg.1, hdeg.2, rfl⟩)
      · refine Or.inr (Or.inr (Or.inr ⟨ha1, ha2, hph, hu, Or.inl rfl, ?_, hne⟩))
        by_cases hh : v.host = []
        · refine Or.inr (Or.inl ?_)
          rw [Option.isSome_iff_ne_none]
          exact fun hn => hdeg ⟨hh, hn⟩
        · exact Or.inl hh

theorem wf_of_normalize (s : Str) (u : GoURL) (h : normalizeURL s = .ok u) : WF u := by
  rw [normalizeURL_eq] at h
  by_cases h1 : trimSpace s = []
  · rw [if_pos h1] at h
    exact Except.noConfusion h
  rw [if_neg h1] at h
  by_cases h2 : startsWith (trimSpace s) (lit "http") = false ∧
      containsSeq (trimSpace s) (lit "://") = true
  · rw [if_pos h2] at h
    exact Except.noConfusion h
  rw [if_neg h2] at h
  obtain ⟨hcp, hcn⟩ := coerceURL_pre (trimSpace s)
  cases hup : urlParse (coerceURL (trimSpace s)) with
  | error e =>
    rw [hup] at h
    exact Except.noConfusion h
  | ok u0 =>
    rw [hup] at h
    simp only at h
    have hw : ∃ w, parsePre (cutChar '#' (coerceURL (trimSpace s))).1 = .ok w ∧
        w.scheme = u0.scheme ∧ w.opq = u0.opq ∧ w.user = u0.user ∧
        w.host = u0.host ∧ w.path = u0.path ∧ w.omitHost = u0.omitHost := by
      rw [urlParse] at hup
      cases hpp : parsePre (cutChar '#' (coerceURL (trimSpace s))).1 with
      | error e =>
        rw [hpp] at hup
        exact Except.noConfusion hup
      | ok w =>
        rw [hpp] at hup
        simp only at hup
        by_cases hf : (cutChar '#' (coerceURL (trimSpace s))).2.2 = true
        · rw [if_pos hf] at hup
          by_cases hve : validEscapes (cutChar '#' (coerceURL (trimSpace s))).2.1 = true
          · rw [if_pos hve] at hup
            rw [Except.ok.injEq] at hup
            exact ⟨w, rfl, by rw [← hup], by rw [← hup], by rw [← hup], by rw [← hup],
              by rw [← hup], by rw [← hup]⟩
          · rw [if_neg hve] at hup
            exact Except.noConfusion hup
        · rw [if_neg hf] at hup
          rw [Except.ok.injEq] at hup
          exact ⟨w, rfl, by rw [hup], by rw [hup], by rw [hup], by rw [hup],
            by rw [hup], by rw [hup]⟩
    obtain ⟨w, hpp, f1, f2, f3, f4, f5, f6⟩ := hw
    have hh1 : '#' ∉ (cutChar '#' (coerceURL (trimSpace s))).1 := cutChar_fst_not_mem _ _
    have hh2 : startsWith (cutChar '#' (coerceURL (trimSpace s))).1 (lit "http") = true :=
      startsWith_cutChar_fst '#' _ _ (by decide) hcp
    have hh3 : startsWith (cutChar '#' (coerceURL (trimSpace s))).1 (lit "http://") = false :=
      startsWith_false_of_pre _ _ _ _ (cutChar_decomp '#' _) hcn
    have hwfw := parsePre_wf _ _ hpp hh2 hh3 hh1
    have hwf0 : PreWF u0 := preWF_fields w u0 hwfw f1.symm f2.symm f3.symm f4.symm f5.symm f6.symm
    by_cases hcol :
        ({u0 with forceQuery := false, rawQuery := [], fragment := []} : GoURL).path = ['/']
    · rw [if_pos hcol] at h
      rw [Except.ok.injEq] at h
      subst h
      have hcol' : u0.path = ['/'] := hcol
      refine ⟨rfl, rfl, rfl, by simp, ?_⟩
      exact preWF_collapse u0 _ hwf0 hcol' rfl rfl rfl rfl rfl rfl
    · rw [if_neg hcol] at h
      rw [Except.ok.injEq] at h
      subst h
      refine ⟨rfl, rfl, rfl, hcol, ?_⟩
      exact preWF_fields u0 _ hwf0 rfl rfl rfl rfl rfl rfl

theorem printPath_valid (p : Str) (hv : validEncodedPath p = true) : printPath p = p := by
  rw [printPath, if_pos hv]

theorem contains_of_mem (l : Str) (c : Char) (h : c ∈ l) : l.contains c = true := by
  induction l with
  | nil => simp at h
  | cons a t ih =>
    rw [List.contains_cons]
    rcases List.mem_cons.mp h with rfl | h
    · simp
    · rw [ih h]
      simp

theorem not_mem_of_beq_false (l : Str) (c : Char)
    (h : ∀ d, d ∈ l → (d == c) = false) : c ∉ l := by
  intro hm
  have := h c hm
  simp at this

theorem lowerSchemeOK_chars (sc : Str) (h : lowerSchemeOK sc = true) :
    ∀ c, c ∈ sc → schemeCharB c = true := by
  rw [lowerSchemeOK, Bool.and_eq_true, List.all_eq_true] at h
  intro c hc
  have := h.2 c hc
  rw [Bool.and_eq_true] at this
  exact this.1

theorem lowerSchemeOK_notUpper (sc : Str) (h : lowerSchemeOK sc = true) :
    ∀ c, c ∈ sc → isUpperAZ c = false := by
  rw [lowerSchemeOK, Bool.and_eq_true, List.all_eq_true] at h
  intro c hc
  have := h.2 c hc
  rw [Bool.and_eq_true] at this
  have h2 := this.2
  revert h2
  cases isUpperAZ c <;> simp

theorem toLowerStr_id (s : Str) (h : ∀ c, c ∈ s → isUpperAZ c = false) :
    toLowerStr s = s := by
  induction s with
  | nil => rfl
  | cons c t ih =>
    rw [toLowerStr, List.map_cons, toLowerC_id c (h c (List.mem_cons_self _ _))]
    rw [show List.map toLowerC t = toLowerStr t from rfl,
      ih (fun d hd => h d (List.mem_cons_of_mem _ hd))]

theorem startsWith_slash_false (o : Str) (hhead : o.head? ≠ some '/') :
    startsWith o (lit "/") = false := by
  cases o with
  | nil => rfl
  | cons c t =>
    rw [show lit "/" = '/' :: ([] : Str) from rfl, startsWith_cons]
    have : (c == '/') = false := by
      rw [beq_eq_false_iff_ne]
      intro he
      exact hhead (by rw [he]; rfl)
    rw [this, Bool.false_and]

theorem head_of_http (p : Str) (h : startsWith p (lit "http") = true) :
    p.head? = some 'h' := by
  obtain ⟨r, rfl⟩ := (startsWith_iff _ _).mp h
  rfl

theorem head_of_schemeStr (sc rest : Str) (h : startsWith sc (lit "http") = true) :
    (sc ++ ':' :: rest).head? = some 'h' := by
  obtain ⟨r, rfl⟩ := (startsWith_iff _ _).mp h
  rfl

theorem http7_colon (p : Str) (h7 : startsWith p (lit "http://") = true) :
    ((cutChar '/' p).1.contains ':') = true := by
  obtain ⟨r, rfl⟩ := (startsWith_iff _ _).mp h7
  rw [show (lit "http://" ++ r : Str) = lit "http:" ++ '/' :: ('/' :: r) from rfl]
  rw [cutChar_append_cons '/' (lit "http:") ('/' :: r) (by decide)]
  show List.contains (lit "http:") ':' = true
  decide

theorem clean_schemeStr (sc rest : Str) (hsc : ∀ c, c ∈ sc → schemeCharB c = true)
    (hrest : clean rest = true) : clean (sc ++ ':' :: rest) = true := by
  rw [clean, List.all_eq_true]
  intro c hc
  rcases List.mem_append.mp hc with hc | hc
  · exact (schemeCharB_clean c (hsc c hc)).1
  · rcases List.mem_cons.mp hc with rfl | hc
    · decide
    · exact clean_mem rest c hrest hc

theorem trimSpace_of_head_tail (t : Str) (hhead : t.head? = some 'h')
    (hw : noTrailWs t = true) : trimSpace t = t := by
  refine trimSpace_eq_self t ?_ ?_
  · intro c hc
    rw [hhead, Option.some.injEq] at hc
    rw [← hc]
    decide
  · intro c hc
    unfold noTrailWs at hw
    rw [hc] at hw
    simpa using hw

theorem toStr_Z (u : GoURL) (h1 : u.scheme = []) (h2 : u.opq = []) (h3 : u.host = [])
    (h4 : u.user = none) (h5 : u.rawQuery = []) (h6 : u.fragment = [])
    (h7 : u.forceQuery = false) (hv : validEncodedPath u.path = true)
    (hcol : ((cutChar '/' u.path).1.contains ':') = false) :
    u.toStr = u.path := by
  rw [GoURL.toStr, printPath_valid u.path hv]
  have hcol' : ':' ∉ (cutChar '/' u.path).1 := by
    intro hm
    rw [contains_of_mem _ _ hm] at hcol
    exact Bool.noConfusion hcol
  simp [h1, h2, h3, h4, h5, h6, h7, hcol']

theorem toStr_O (u : GoURL) (hsc : u.scheme ≠ []) (ho : u.opq ≠ [])
    (h5 : u.rawQuery = []) (h6 : u.fragment = []) (h7 : u.forceQuery = false) :
    u.toStr = u.scheme ++ ':' :: u.opq := by
  rw [GoURL.toStr]
  simp [hsc, ho, h5, h6, h7, List.append_assoc]

theorem toStr_E (u : GoURL) (hsc : u.scheme ≠ []) (h2 : u.opq = []) (h3 : u.host = [])
    (h4 : u.user = none) (hp : u.path = []) (h5 : u.rawQuery = []) (h6 : u.fragment = [])
    (h7 : u.forceQuery = false) :
    u.toStr = u.scheme ++ [':'] := by
  rw [GoURL.toStr]
  by_cases hom : u.omitHost = true
  · simp [hsc, h2, h3, h4, hp, h5, h6, h7, hom, show printPath ([] : Str) = [] from rfl]
  · have hom' : u.omitHost = false := by revert hom; cases u.omitHost <;> simp
    simp [hsc, h2, h3, h4, hp, h5, h6, h7, hom',
      show printPath ([] : Str) = [] from rfl]

theorem toStr_M (u : GoURL) (hsc : u.scheme ≠ []) (h2 : u.opq = []) (h3 : u.host = [])
    (h4 : u.user = none) (hom : u.omitHost = true) (h5 : u.rawQuery = [])
    (h6 : u.fragment = []) (h7 : u.forceQuery = false)
    (hv : validEncodedPath u.path = true) :
    u.toStr = u.scheme ++ ':' :: u.path := by
  rw [GoURL.toStr, printPath_valid u.path hv]
  simp [hsc, h2, h3, h4, hom, h5, h6, h7, List.append_assoc]

theorem toStr_A_none (u : GoURL) (hsc : u.scheme ≠ []) (h2 : u.opq = [])
    (h4 : u.user = none) (hom : u.omitHost = false) (h5 : u.rawQuery = [])
    (h6 : u.fragment = []) (h7 : u.forceQuery = false)
    (hv : validEncodedPath u.path = true)
    (hbb : u.host ≠ [] ∨ u.path ≠ [])
    (hpath : u.path = [] ∨ u.path.head? = some '/') :
    u.toStr = u.scheme ++ ':' :: '/' :: '/' :: (u.host ++ u.path) := by
  rw [GoURL.toStr, printPath_valid u.path hv]
  rcases hpath with hp | hp
  · rcases hbb with hb | hb
    · simp [hsc, h2, h4, hom, h5, h6, h7, hp, hb, List.append_assoc,
        show lit "//" = ['/', '/'] from rfl]
    · exact absurd hp hb
  · rcases hbb with hb | hb <;>
      simp [hsc, h2, h4, hom, h5, h6, h7, hp, hb, List.append_assoc,
        show lit "//" = ['/', '/'] from rfl]

theorem toStr_A_some (u : GoURL) (ui : Str) (hsc : u.scheme ≠ []) (h2 : u.opq = [])
    (h4 : u.user = some ui) (hom : u.omitHost = false) (h5 : u.rawQuery = [])
    (h6 : u.fragment = []) (h7 : u.forceQuery = false)
    (hv : validEncodedPath u.path = true)
    (hpath : u.path = [] ∨ u.path.head? = some '/') :
    u.toStr = u.scheme ++ ':' :: '/' :: '/' :: (ui ++ '@' :: (u.host ++ u.path)) := by
  rw [GoURL.toStr, printPath_valid u.path hv]
  rcases hpath with hp | hp <;>
    simp [hsc, h2, h4, hom, h5, h6, h7, hp, List.append_assoc,
      show lit "//" = ['/', '/'] from rfl]

theorem hostBody_facts (hh : Str) (hb : validateHostBody hh = true) :
    clean hh = true ∧ '/' ∉ hh ∧ '@' ∉ hh := by
  have hc := validateHostBody_chars hh hb
  refine ⟨?_, ?_, ?_⟩
  · rw [clean, List.all_eq_true]
    exact fun c hcm => (hc c hcm).1
  · exact not_mem_of_beq_false _ _ (fun d hd => (hc d hd).2.1)
  · exact not_mem_of_beq_false _ _ (fun d hd => (hc d hd).2.2)

theorem userinfo_facts (ui : Str) (hu : validUserinfo ui = true) :
    clean ui = true ∧ '/' ∉ ui := by
  have hc := validUserinfo_chars ui hu
  refine ⟨?_, ?_⟩
  · rw [clean, List.all_eq_true]
    exact fun c hcm => (hc c hcm).1
  · exact not_mem_of_beq_false _ _ (fun d hd => (hc d hd).2)

theorem parseHost_ok_body (hh : Str) (hp : parseHost hh = .ok hh) :
    validateHostBody hh = true := by
  unfold parseHost at hp
  repeat' split at hp
  all_goals first
  | exact Except.noConfusion hp
  | assumption

theorem parseAuthority_none (hh : Str) (hat : '@' ∉ hh) (hph : parseHost hh = .ok hh) :
    parseAuthority hh = .ok (none, hh) := by
  simp only [parseAuthority, cutLast_of_not_mem '@' hh hat, hph]

theorem parseAuthority_some (ui hh : Str) (hat : '@' ∉ hh) (hph : parseHost hh = .ok hh)
    (hu1 : validUserinfo ui = true) (hu2 : validEscapes ui = true) :
    parseAuthority (ui ++ '@' :: hh) = .ok (some ui, hh) := by
  simp only [parseAuthority, cutLast_append_cons '@' ui hh hat, hph, hu1, hu2,
    Bool.and_self, if_true]

theorem getScheme_schemeStr (sc rest : Str) (hlow : lowerSchemeOK sc = true) :
    getScheme (sc ++ ':' :: rest) = .ok (sc, rest) := by
  obtain ⟨e, hee⟩ := (startsWith_iff _ _).mp (lowerSchemeOK_http_pre sc hlow)
  have hchars := lowerSchemeOK_chars sc hlow
  have hcs : ∀ c, c ∈ ('t' :: 't' :: 'p' :: e) → schemeCharB c = true := by
    intro c hc
    rcases List.mem_cons.mp hc with rfl | hc
    · decide
    rcases List.mem_cons.mp hc with rfl | hc
    · decide
    rcases List.mem_cons.mp hc with rfl | hc
    · decide
    · refine hchars c ?_
      rw [hee]
      exact List.mem_append_right _ hc
  have h := getScheme_of_scheme 'h' ('t' :: 't' :: 'p' :: e) rest (by decide) hcs
  rw [hee]
  exact h

theorem parsePre_O (sc o : Str) (hlow : lowerSchemeOK sc = true) (ho : o ≠ [])
    (hhead : o.head? ≠ some '/') (hcleano : clean o = true) :
    parsePre (sc ++ ':' :: o) = .ok { scheme := sc, opq := o } := by
  have hchars := lowerSchemeOK_chars sc hlow
  have hcleant := clean_schemeStr sc o hchars hcleano
  have hctl : (sc ++ ':' :: o).any isCTL = false := (clean_not_mem _ hcleant).2.2
  have hstar : sc ++ ':' :: o ≠ lit "*" := by
    intro he
    have hhd := head_of_schemeStr sc o (lowerSchemeOK_http_pre _ hlow)
    rw [he] at hhd
    exact absurd hhd (by decide)
  have hnq : '?' ∉ o := (clean_not_mem _ hcleano).2.1
  rw [parsePre, hctl]
  simp only [Bool.false_eq_true, if_false]
  rw [if_neg hstar, getScheme_schemeStr sc o hlow]
  simp only
  rw [toLowerStr_id sc (lowerSchemeOK_notUpper sc hlow)]
  rw [if_neg (show ¬(List.getLast? o = some '?' ∧ List.count '?' o = 1) from
    fun hc => hnq (List.mem_of_getLast?_eq_some hc.1))]
  rw [cutChar_of_not_mem '?' o hnq]
  simp only
  rw [if_pos (show ¬ startsWith o (lit "/") = true from by
    rw [startsWith_slash_false o hhead]; simp)]
  rw [if_pos (show sc ≠ [] from lowerSchemeOK_ne_nil sc hlow)]

theorem parsePre_E (sc : Str) (hlow : lowerSchemeOK sc = true) :
    parsePre (sc ++ [':']) = .ok { scheme := sc } := by
  have hchars := lowerSchemeOK_chars sc hlow
  have hcleant := clean_schemeStr sc [] hchars rfl
  have hctl : (sc ++ [':']).any isCTL = false := (clean_not_mem _ hcleant).2.2
  have hstar : sc ++ [':'] ≠ lit "*" := by
    intro he
    have hhd := head_of_schemeStr sc [] (lowerSchemeOK_http_pre _ hlow)
    rw [he] at hhd
    exact absurd hhd (by decide)
  rw [parsePre, hctl]
  simp only [Bool.false_eq_true, if_false]
  rw [if_neg hstar, getScheme_schemeStr sc [] hlow]
  simp only
  rw [toLowerStr_id sc (lowerSchemeOK_notUpper sc hlow)]
  rw [if_neg (show ¬(List.getLast? ([] : Str) = some '?' ∧ List.count '?' ([] : Str) = 1)
    from by simp)]
  rw [cutChar_of_not_mem '?' [] (by simp)]
  simp only
  rw [if_pos (show ¬ startsWith [] (lit "/") = true from by decide)]
  rw [if_pos (show sc ≠ [] from lowerSchemeOK_ne_nil sc hlow)]

theorem parsePre_M (sc p : Str) (hlow : lowerSchemeOK sc = true)
    (hsl : startsWith p (lit "/") = true) (hss : startsWith p (lit "//") = false)
    (hcleanp : clean p = true) (hvalp : validEscapes p = true) :
    parsePre (sc ++ ':' :: p) = .ok { scheme := sc, path := p, omitHost := true } := by
  have hchars := lowerSchemeOK_chars sc hlow
  have hcleant := clean_schemeStr sc p hchars hcleanp
  have hctl : (sc ++ ':' :: p).any isCTL = false := (clean_not_mem _ hcleant).2.2
  have hstar : sc ++ ':' :: p ≠ lit "*" := by
    intro he
    have hhd := head_of_schemeStr sc p (lowerSchemeOK_http_pre _ hlow)
    rw [he] at hhd
    exact absurd hhd (by decide)
  have hnq : '?' ∉ p := (clean_not_mem _ hcleanp).2.1
  rw [parsePre, hctl]
  simp only [Bool.false_eq_true, if_false]
  rw [if_neg hstar, getScheme_schemeStr sc p hlow]
  simp only
  rw [toLowerStr_id sc (lowerSchemeOK_notUpper sc hlow)]
  rw [if_neg (show ¬(List.getLast? p = some '?' ∧ List.count '?' p = 1) from
    fun hc => hnq (List.mem_of_getLast?_eq_some hc.1))]
  rw [cutChar_of_not_mem '?' p hnq]
  simp only
  rw [if_neg (show ¬¬ startsWith p (lit "/") = true from fun hc => hc hsl)]
  rw [if_neg (show ¬((sc ≠ [] ∨ ¬ startsWith p (lit "///") = true) ∧
      startsWith p (lit "//") = true) from fun hc => absurd hc.2 (by rw [hss]; simp))]
  rw [if_pos (show validEscapes p = true from hvalp)]
  rw [show decide (sc ≠ [] ∧ startsWith p (lit "/") = true) = true from
    decide_eq_true ⟨lowerSchemeOK_ne_nil sc hlow, hsl⟩]

theorem parsePre_A_none (sc hh p : Str) (hlow : lowerSchemeOK sc = true)
    (hph : parseHost hh = .ok hh) (hpath : p = [] ∨ startsWith p (lit "/") = true)
    (hcleanp : clean p = true) (hvalp : validEscapes p = true) :
    parsePre (sc ++ ':' :: '/' :: '/' :: (hh ++ p)) =
      .ok { scheme := sc, host := hh, path := p } := by
  have hchars := lowerSchemeOK_chars sc hlow
  obtain ⟨hhclean, hhslash, hhat⟩ := hostBody_facts hh (parseHost_ok_body hh hph)
  have hcleanr : clean ('/' :: '/' :: (hh ++ p)) = true := by
    rw [clean, List.all_eq_true]
    intro c hc
    rcases List.mem_cons.mp hc with rfl | hc
    · decide
    rcases List.mem_cons.mp hc with rfl | hc
    · decide
    rcases List.mem_append.mp hc with hc | hc
    · exact clean_mem hh c hhclean hc
    · exact clean_mem p c hcleanp hc
  have hcleant := clean_schemeStr sc _ hchars hcleanr
  have hctl : (sc ++ ':' :: '/' :: '/' :: (hh ++ p)).any isCTL = false :=
    (clean_not_mem _ hcleant).2.2
  have hstar : sc ++ ':' :: '/' :: '/' :: (hh ++ p) ≠ lit "*" := by
    intro he
    have hhd := head_of_schemeStr sc ('/' :: '/' :: (hh ++ p))
      (lowerSchemeOK_http_pre _ hlow)
    rw [he] at hhd
    exact absurd hhd (by decide)
  have hnq : '?' ∉ '/' :: '/' :: (hh ++ p) := (clean_not_mem _ hcleanr).2.1
  have hslr : startsWith ('/' :: '/' :: (hh ++ p)) (lit "/") = true := by
    rw [show lit "/" = '/' :: ([] : Str) from rfl, startsWith_cons]
    simp [startsWith]
  have hssr : startsWith ('/' :: '/' :: (hh ++ p)) (lit "//") = true := by
    rw [show lit "//" = '/' :: '/' :: ([] : Str) from rfl, startsWith_cons]
    simp [startsWith_cons, startsWith]
  rw [parsePre, hctl]
  simp only [Bool.false_eq_true, if_false]
  rw [if_neg hstar, getScheme_schemeStr sc _ hlow]
  simp only
  rw [toLowerStr_id sc (lowerSchemeOK_notUpper sc hlow)]
  rw [if_neg (show ¬(List.getLast? ('/' :: '/' :: (hh ++ p)) = some '?' ∧
      List.count '?' ('/' :: '/' :: (hh ++ p)) = 1) from
    fun hc => hnq (List.mem_of_getLast?_eq_some hc.1))]
  rw [cutChar_of_not_mem '?' _ hnq]
  simp only
  rw [if_neg (show ¬¬ startsWith ('/' :: '/' :: (hh ++ p)) (lit "/") = true from
    fun hc => hc hslr)]
  rw [if_pos (show (sc ≠ [] ∨ ¬ startsWith ('/' :: '/' :: (hh ++ p)) (lit "///") = true) ∧
      startsWith ('/' :: '/' :: (hh ++ p)) (lit "//") = true from
    ⟨Or.inl (lowerSchemeOK_ne_nil sc hlow), hssr⟩)]
  rw [show List.drop 2 ('/' :: '/' :: (hh ++ p)) = hh ++ p from rfl]
  rcases hpath with rfl | hsp
  · rw [List.append_nil, cutChar_of_not_mem '/' hh hhslash]
    simp only
    rw [parseAuthority_none hh hhat hph]
    simp only [Bool.false_eq_true, if_false]
    rw [if_pos (show validEscapes ([] : Str) = true from rfl)]
  · obtain ⟨pp, rfl⟩ := (startsWith_iff _ _).mp hsp
    rw [show (lit "/" ++ pp : Str) = '/' :: pp from rfl]
    rw [cutChar_append_cons '/' hh pp hhslash]
    simp only
    rw [parseAuthority_none hh hhat hph]
    simp only [if_true]
    rw [if_pos (show validEscapes ('/' :: pp) = true from hvalp)]

theorem parsePre_A_some (sc ui hh p : Str) (hlow : lowerSchemeOK sc = true)
    (hph : parseHost hh = .ok hh) (hu1 : validUserinfo ui = true)
    (hu2 : validEscapes ui = true)
    (hpath : p = [] ∨ startsWith p (lit "/") = true)
    (hcleanp : clean p = true) (hvalp : validEscapes p = true) :
    parsePre (sc ++ ':' :: '/' :: '/' :: (ui ++ '@' :: (hh ++ p))) =
      .ok { scheme := sc, user := some ui, host := hh, path := p } := by
  have hchars := lowerSchemeOK_chars sc hlow
  obtain ⟨hhclean, hhslash, hhat⟩ := hostBody_facts hh (parseHost_ok_body hh hph)
  obtain ⟨huiclean, huislash⟩ := userinfo_facts ui hu1
  have haslash : '/' ∉ (ui ++ '@' :: hh) := by
    intro hm
    rcases List.mem_append.mp hm with hm | hm
    · exact huislash hm
    · rcases List.mem_cons.mp hm with he | hm
      · exact absurd he (by decide)
      · exact hhslash hm
  have hinner : (ui ++ '@' :: (hh ++ p) : Str) = (ui ++ '@' :: hh) ++ p := by
    simp
  have hcleanr : clean ('/' :: '/' :: (ui ++ '@' :: (hh ++ p))) = true := by
    rw [clean, List.all_eq_true]
    intro c hc
    rcases List.mem_cons.mp hc with rfl | hc
    · decide
    rcases List.mem_cons.mp hc with rfl | hc
    · decide
    rcases List.mem_append.mp hc with hc | hc
    · exact clean_mem ui c huiclean hc
    rcases List.mem_cons.mp hc with rfl | hc
    · decide
    rcases List.mem_append.mp hc with hc | hc
    · exact clean_mem hh c hhclean hc
    · exact clean_mem p c hcleanp hc
  have hcleant := clean_schemeStr sc _ hchars hcleanr
  have hctl : (sc ++ ':' :: '/' :: '/' :: (ui ++ '@' :: (hh ++ p))).any isCTL = false :=
    (clean_not_mem _ hcleant).2.2
  have hstar : sc ++ ':' :: '/' :: '/' :: (ui ++ '@' :: (hh ++ p)) ≠ lit "*" := by
    intro he
    have hhd := head_of_schemeStr sc ('/' :: '/' :: (ui ++ '@' :: (hh ++ p)))
      (lowerSchemeOK_http_pre _ hlow)
    rw [he] at hhd
    exact absurd hhd (by decide)
  have hnq : '?' ∉ '/' :: '/' :: (ui ++ '@' :: (hh ++ p)) := (clean_not_mem _ hcleanr).2.1
  have hslr : startsWith ('/' :: '/' :: (ui ++ '@' :: (hh ++ p))) (lit "/") = true := by
    rw [show lit "/" = '/' :: ([] : Str) from rfl, startsWith_cons]
    simp [startsWith]
  have hssr : startsWith ('/' :: '/' :: (ui ++ '@' :: (hh ++ p))) (lit "//") = true := by
    rw [show lit "//" = '/' :: '/' :: ([] : Str) from rfl, startsWith_cons]
    simp [startsWith_cons, startsWith]
  rw [parsePre, hctl]
  simp only [Bool.false_eq_true, if_false]
  rw [if_neg hstar, getScheme_schemeStr sc _ hlow]
  simp only
  rw [toLowerStr_id sc (lowerSchemeOK_notUpper sc hlow)]
  rw [if_neg (show ¬(List.getLast? ('/' :: '/' :: (ui ++ '@' :: (hh ++ p))) = some '?' ∧
      List.count '?' ('/' :: '/' :: (ui ++ '@' :: (hh ++ p))) = 1) from
    fun hc => hnq (List.mem_of_getLast?_eq_some hc.1))]
  rw [cutChar_of_not_mem '?' _ hnq]
  simp only
  rw [if_neg (show ¬¬ startsWith ('/' :: '/' :: (ui ++ '@' :: (hh ++ p))) (lit "/") = true
    from fun hc => hc hslr)]
  rw [if_pos (show (sc ≠ [] ∨
      ¬ startsWith ('/' :: '/' :: (ui ++ '@' :: (hh ++ p))) (lit "///") = true) ∧
      startsWith ('/' :: '/' :: (ui ++ '@' :: (hh ++ p))) (lit "//") = true from
    ⟨Or.inl (lowerSchemeOK_ne_nil sc hlow), hssr⟩)]
  rw [show List.drop 2 ('/' :: '/' :: (ui ++ '@' :: (hh ++ p))) = ui ++ '@' :: (hh ++ p)
    from rfl]
  rw [hinner]
  rcases hpath with rfl | hsp
  · rw [List.append_nil, cutChar_of_not_mem '/' _ haslash]
    simp only
    rw [parseAuthority_some ui hh hhat hph hu1 hu2]
    simp only [Bool.false_eq_true, if_false]
    rw [if_pos (show validEscapes ([] : Str) = true from rfl)]
  · obtain ⟨pp, rfl⟩ := (startsWith_iff _ _).mp hsp
    rw [show (lit "/" ++ pp : Str) = '/' :: pp from rfl]
    rw [cutChar_append_cons '/' _ pp haslash]
    simp only
    rw [parseAuthority_some ui hh hhat hph hu1 hu2]
    simp only [if_true]
    rw [if_pos (show validEscapes ('/' :: pp) = true from hvalp)]

theorem normalizeURL_of_parsePre (t : Str) (w : GoURL)
    (hhead : t.head? = some 'h') (hwtr : noTrailWs t = true)
    (hcp : startsWith t (lit "http") = true)
    (hcn : startsWith t (lit "http://") = false)
    (hhash : '#' ∉ t)
    (hpp : parsePre t = .ok w)
    (hwpath : w.path ≠ ['/'])
    (hwq : w.rawQuery = []) (hwfq : w.forceQuery = false) (hwfr : w.fragment = []) :
    normalizeURL t = .ok w := by
  have htr : trimSpace t = t := trimSpace_of_head_tail t hhead hwtr
  have hne : t ≠ [] := by
    intro he
    rw [he] at hhead
    exact Option.noConfusion hhead
  rw [normalizeURL_eq, htr]
  rw [if_neg hne]
  rw [if_neg (show ¬(startsWith t (lit "http") = false ∧
      containsSeq t (lit "://") = true) from fun hc => by
    rw [hcp] at hc
    exact Bool.noConfusion hc.1)]
  rw [coerceURL, if_pos (show startsWith t (lit "http") = true from hcp)]
  rw [if_neg (show ¬ startsWith t (lit "http://") = true from fun hc => by
    rw [hcn] at hc
    exact Bool.noConfusion hc)]
  rw [urlParse_no_fragment t hhash, hpp]
  simp only
  have hu1 : ({w with forceQuery := false, rawQuery := [], fragment := []} : GoURL) = w := by
    cases w with
    | mk sc op us ho pa om fq rq fr =>
      have e1 : fq = false := hwfq
      have e2 : rq = [] := hwq
      have e3 : fr = [] := hwfr
      subst e1
      subst e2
      subst e3
      rfl
  rw [hu1]
  rw [if_neg hwpath]

theorem normalizeURL_reparse_Z (p : Str) (hpre : startsWith p (lit "http") = true)
    (hcol : ((cutChar '/' p).1.contains ':') = false)
    (hcleanp : clean p = true) (hvalp : validEscapes p = true)
    (hwtr : noTrailWs p = true) :
    normalizeURL p = .ok { path := p } := by
  have hg : getScheme p = .ok ([], p) := by
    obtain ⟨e, hee⟩ := (startsWith_iff _ _).mp hpre
    rw [hee]
    rw [show (lit "http" ++ e : Str) = 'h' :: ('t' :: 't' :: 'p' :: e) from rfl]
    simp only [getScheme, show isAlphaC 'h' = true from rfl, if_true]
    obtain ⟨⟨sc1, r1⟩, hsl⟩ :=
      getSchemeLoop_isOk ('h' :: ('t' :: 't' :: 'p' :: e)) ('t' :: 't' :: 'p' :: e) ['h']
    rcases getSchemeLoop_decomp _ _ _ _ _ hsl with ⟨he1, he2⟩ | ⟨mid, hm1, hm2, hm3⟩
    · rw [hsl, he1, he2]
    · exfalso
      have hns : '/' ∉ ('h' :: mid) ++ [':'] := by
        intro hm
        rcases List.mem_append.mp hm with hm | hm
        · rcases List.mem_cons.mp hm with he | hm
          · exact absurd he (by decide)
          · have := (schemeCharB_clean _ (hm3 _ hm)).2.2
            simp at this
        · rcases List.mem_cons.mp hm with he | hm
          · exact absurd he (by decide)
          · simp at hm
      have hdec : ('h' :: ('t' :: 't' :: 'p' :: e) : Str) = (('h' :: mid) ++ [':']) ++ r1 := by
        rw [hm1]
        simp
      rw [hee, show (lit "http" ++ e : Str) = 'h' :: ('t' :: 't' :: 'p' :: e) from rfl,
        hdec] at hcol
      rw [cutChar_append_left '/' _ r1 hns] at hcol
      have : ':' ∈ ('h' :: mid) ++ [':'] ++ (cutChar '/' r1).1 := by
        refine List.mem_append_left _ ?_
        exact List.mem_append_right _ (List.mem_cons_self _ _)
      rw [contains_of_mem _ _ this] at hcol
      exact Bool.noConfusion hcol
  have hhead : p.head? = some 'h' := head_of_http p hpre
  have hcn : startsWith p (lit "http://") = false := by
    by_cases hb : startsWith p (lit "http://") = true
    · rw [http7_colon p hb] at hcol
      exact Bool.noConfusion hcol
    · revert hb; cases startsWith p (lit "http://") <;> simp
  have hctl : p.any isCTL = false := (clean_not_mem _ hcleanp).2.2
  have hnq : '?' ∉ p := (clean_not_mem _ hcleanp).2.1
  have hhash : '#' ∉ p := (clean_not_mem _ hcleanp).1
  have hstar : p ≠ lit "*" := by
    intro he
    rw [he] at hhead
    exact absurd hhead (by decide)
  have hpne : p ≠ ['/'] := by
    intro he
    rw [he] at hpre
    exact absurd hpre (by decide)
  refine normalizeURL_of_parsePre p _ hhead hwtr hpre hcn hhash ?_ hpne rfl rfl rfl
  rw [parsePre, hctl]
  simp only [Bool.false_eq_true, if_false]
  rw [if_neg hstar, hg]
  simp only
  rw [show toLowerStr [] = ([] : Str) from rfl]
  rw [if_neg (show ¬(List.getLast? p = some '?' ∧ List.count '?' p = 1) from
    fun hc => hnq (List.mem_of_getLast?_eq_some hc.1))]
  rw [cutChar_of_not_mem '?' p hnq]
  simp only
  rw [if_pos (show ¬ startsWith p (lit "/") = true from by
    rw [startsWith_slash_false p (by rw [hhead]; simp)]; simp)]
  rw [if_neg (show ¬(([] : Str) ≠ []) from fun hc => hc rfl)]
  rw [if_neg (show ¬ List.contains (cutChar '/' p).1 ':' = true from by
    rw [hcol]; simp)]
  rw [if_pos (show validEscapes p = true from hvalp)]

theorem schemeStr_http (sc rest : Str) (hlow : lowerSchemeOK sc = true) :
    startsWith (sc ++ ':' :: rest) (lit "http") = true := by
  obtain ⟨e, rfl⟩ := (startsWith_iff _ _).mp (lowerSchemeOK_http_pre sc hlow)
  rw [List.append_assoc]
  exact startsWith_append_left _ _ _ (startsWith_refl _)

theorem schemeStr_not_http7 (sc rest : Str) (hlow : lowerSchemeOK sc = true)
    (h : sc = lit "http" → startsWith rest (lit "//") = false) :
    startsWith (sc ++ ':' :: rest) (lit "http://") = false := by
  by_cases hsc : sc = lit "http"
  · rw [hsc]
    show startsWith (lit "http:" ++ rest) (lit "http:" ++ lit "//") = false
    rw [startsWith_append_both]
    exact h hsc
  · obtain ⟨e, hee⟩ := (startsWith_iff _ _).mp (lowerSchemeOK_http_pre sc hlow)
    cases e with
    | nil =>
      rw [List.append_nil] at hee
      exact absurd hee hsc
    | cons d e' =>
      have hd : (d == ':') = false := by
        have hdm : d ∈ sc := by
          rw [hee]
          exact List.mem_append_right _ (List.mem_cons_self _ _)
        exact (schemeCharB_clean _ (lowerSchemeOK_chars sc hlow d hdm)).2.1
      rw [hee]
      rw [show ((lit "http" ++ d :: e') ++ ':' :: rest : Str) =
        'h' :: 't' :: 't' :: 'p' :: d :: (e' ++ ':' :: rest) from rfl]
      rw [show lit "http://" =
        'h' :: 't' :: 't' :: 'p' :: ':' :: '/' :: '/' :: ([] : Str) from rfl]
      simp [startsWith_cons, hd]

theorem normalizeURL_reparse_O (sc o : Str) (hlow : lowerSchemeOK sc = true) (ho : o ≠ [])
    (hhead : o.head? ≠ some '/') (hcleano : clean o = true)
    (hwtr : noTrailWs (sc ++ ':' :: o) = true) :
    normalizeURL (sc ++ ':' :: o) = .ok { scheme := sc, opq := o } := by
  have hss : startsWith o (lit "//") = false := by
    cases o with
    | nil => exact absurd rfl ho
    | cons c t => exact startsWith_two_slash c t (startsWith_slash_false _ hhead)
  have hcleant := clean_schemeStr sc o (lowerSchemeOK_chars sc hlow) hcleano
  refine normalizeURL_of_parsePre _ _
    (head_of_schemeStr sc o (lowerSchemeOK_http_pre _ hlow)) hwtr
    (schemeStr_http sc o hlow) (schemeStr_not_http7 sc o hlow (fun _ => hss))
    ((clean_not_mem _ hcleant).1)
    (parsePre_O sc o hlow ho hhead hcleano)
    (show ([] : Str) ≠ ['/'] from by decide) rfl rfl rfl

theorem normalizeURL_reparse_E (sc : Str) (hlow : lowerSchemeOK sc = true)
    (hwtr : noTrailWs (sc ++ [':']) = true) :
    normalizeURL (sc ++ [':']) = .ok { scheme := sc } := by
  have hcleant := clean_schemeStr sc [] (lowerSchemeOK_chars sc hlow) rfl
  refine normalizeURL_of_parsePre _ _
    (head_of_schemeStr sc [] (lowerSchemeOK_http_pre _ hlow)) hwtr
    (schemeStr_http sc [] hlow) (schemeStr_not_http7 sc [] hlow (fun _ => rfl))
    ((clean_not_mem _ hcleant).1)
    (parsePre_E sc hlow)
    (show ([] : Str) ≠ ['/'] from by decide) rfl rfl rfl

theorem normalizeURL_reparse_M (sc p : Str) (hlow : lowerSchemeOK sc = true)
    (hsl : startsWith p (lit "/") = true) (hss : startsWith p (lit "//") = false)
    (hcleanp : clean p = true) (hvalp : validEscapes p = true) (hpne : p ≠ ['/'])
    (hwtr : noTrailWs (sc ++ ':' :: p) = true) :
    normalizeURL (sc ++ ':' :: p) = .ok { scheme := sc, path := p, omitHost := true } := by
  have hcleant := clean_schemeStr sc p (lowerSchemeOK_chars sc hlow) hcleanp
  refine normalizeURL_of_parsePre _ _
    (head_of_schemeStr sc p (lowerSchemeOK_http_pre _ hlow)) hwtr
    (schemeStr_http sc p hlow) (schemeStr_not_http7 sc p hlow (fun _ => hss))
    ((clean_not_mem _ hcleant).1)
    (parsePre_M sc p hlow hsl hss hcleanp hvalp)
    hpne rfl rfl rfl

theorem normalizeURL_reparse_A_none (sc hh p : Str) (hlow : lowerSchemeOK sc = true)
    (hph : parseHost hh = .ok hh) (hpath : p = [] ∨ startsWith p (lit "/") = true)
    (hcleanp : clean p = true) (hvalp : validEscapes p = true) (hpne : p ≠ ['/'])
    (hneq : sc ≠ lit "http")
    (hwtr : noTrailWs (sc ++ ':' :: '/' :: '/' :: (hh ++ p)) = true) :
    normalizeURL (sc ++ ':' :: '/' :: '/' :: (hh ++ p)) =
      .ok { scheme := sc, host := hh, path := p } := by
  obtain ⟨hhclean, hhslash, hhat⟩ := hostBody_facts hh (parseHost_ok_body hh hph)
  have hcleanr : clean ('/' :: '/' :: (hh ++ p)) = true := by
    rw [clean, List.all_eq_true]
    intro c hc
    rcases List.mem_cons.mp hc with rfl | hc
    · decide
    rcases List.mem_cons.mp hc with rfl | hc
    · decide
    rcases List.mem_append.mp hc with hc | hc
    · exact clean_mem hh c hhclean hc
    · exact clean_mem p c hcleanp hc
  have hcleant := clean_schemeStr sc _ (lowerSchemeOK_chars sc hlow) hcleanr
  refine normalizeURL_of_parsePre _ _
    (head_of_schemeStr sc _ (lowerSchemeOK_http_pre _ hlow)) hwtr
    (schemeStr_http sc _ hlow) (schemeStr_not_http7 sc _ hlow (fun he => absurd he hneq))
    ((clean_not_mem _ hcleant).1)
    (parsePre_A_none sc hh p hlow hph hpath hcleanp hvalp)
    hpne rfl rfl rfl

theorem normalizeURL_reparse_A_some (sc ui hh p : Str) (hlow : lowerSchemeOK sc = true)
    (hph : parseHost hh = .ok hh) (hu1 : validUserinfo ui = true)
    (hu2 : validEscapes ui = true)
    (hpath : p = [] ∨ startsWith p (lit "/") = true)
    (hcleanp : clean p = true) (hvalp : validEscapes p = true) (hpne : p ≠ ['/'])
    (hneq : sc ≠ lit "http")
    (hwtr : noTrailWs (sc ++ ':' :: '/' :: '/' :: (ui ++ '@' :: (hh ++ p))) = true) :
    normalizeURL (sc ++ ':' :: '/' :: '/' :: (ui ++ '@' :: (hh ++ p))) =
      .ok { scheme := sc, user := some ui, host := hh, path := p } := by
  obtain ⟨hhclean, hhslash, hhat⟩ := hostBody_facts hh (parseHost_ok_body hh hph)
  obtain ⟨huiclean, huislash⟩ := userinfo_facts ui hu1
  have hcleanr : clean ('/' :: '/' :: (ui ++ '@' :: (hh ++ p))) = true := by
    rw [clean, List.all_eq_true]
    intro c hc
    rcases List.mem_cons.mp hc with rfl | hc
    · decide
    rcases List.mem_cons.mp hc with rfl | hc
    · decide
    rcases List.mem_append.mp hc with hc | hc
    · exact clean_mem ui c huiclean hc
    rcases List.mem_cons.mp hc with rfl | hc
    · decide
    rcases List.mem_append.mp hc with hc | hc
    · exact clean_mem hh c hhclean hc
    · exact clean_mem p c hcleanp hc
  have hcleant := clean_schemeStr sc _ (lowerSchemeOK_chars sc hlow) hcleanr
  refine normalizeURL_of_parsePre _ _
    (head_of_schemeStr sc _ (lowerSchemeOK_http_pre _ hlow)) hwtr
    (schemeStr_http sc _ hlow) (schemeStr_not_http7 sc _ hlow (fun he => absurd he hneq))
    ((clean_not_mem _ hcleant).1)
    (parsePre_A_some sc ui hh p hlow hph hu1 hu2 hpath hcleanp hvalp)
    hpne rfl rfl rfl


/-! Claim theorems. -/

/-- Claim C7: for every processed URL whose raw string key the cache
holds (`Get` succeeds), the fetcher is never invoked, and (as soon as
the URL parses, which every queued URL does) the worker synthesizes a
response carrying only the cached markup — zero status code, no
headers, no links. -/
theorem processURL_cache_precedence (env : ProcEnv) (raw html : Str) (g : Str → Option Str)
    (hc : env.cacheGet = some g) (hhit : g raw = some html) :
    (processURL env raw).fetchCalled = false ∧
    ∀ p, urlParse raw = .ok p →
      (processURL env raw).response =
        some { url := raw, statusCode := 0, headers := [], html := html, links := none } := by
  cases hp : urlParse raw with
  | error e =>
    refine ⟨by simp [processURL, hp], ?_⟩
    intro p h
    simp at h
  | ok p =>
    refine ⟨?_, ?_⟩
    · simp [processURL, hp, hc, hhit, processURLWith]
    · intro q h
      simp [processURL, hp, hc, hhit, processURLWith]

/-- Witness for C7 at a concrete cached URL. -/
theorem processURL_cache_precedence_witness :
    (processURL envCache (lit "https://example.com")).fetchCalled = false ∧
    (processURL envCache (lit "https://example.com")).response =
      some { url := lit "https://example.com", statusCode := 0, headers := [],
             html := lit "<h1>cached</h1>", links := none } :=
  ⟨(processURL_cache_precedence envCache (lit "https://example.com")
      (lit "<h1>cached</h1>") gEx rfl (by decide)).1,
   (processURL_cache_precedence envCache (lit "https://example.com")
      (lit "<h1>cached</h1>") gEx rfl (by decide)).2
     { scheme := lit "https", host := lit "example.com" } (by decide)⟩

/-- Claim C2 (code-bug evidence): on a page discovering three fresh
eligible links with ample queue space, the per-entry admission the spec
and the package's own test (`TestCrawler_FollowBehavior`, follow any)
require enqueues all three, while the committed body — which after
collecting `next` performs exactly one non-blocking send of the
out-of-scope identifier `urlStr` — enqueues at most one, although it
marks all three as seen. -/
theorem queueDiscovered_single_send_divergence :
    (queueDiscoveredAll 1 10 { cap := 100 }
        [lit "https://a.com/1", lit "https://a.com/2", lit "https://a.com/3"]).queue =
      [lit "https://a.com/1", lit "https://a.com/2", lit "https://a.com/3"] ∧
    (queueDiscoveredSingle 1 10 { cap := 100 }
        [lit "https://a.com/1", lit "https://a.com/2", lit "https://a.com/3"]).queue =
      [lit "https://a.com/1"] ∧
    (queueDiscoveredSingle 1 10 { cap := 100 }
        [lit "https://a.com/1", lit "https://a.com/2", lit "https://a.com/3"]).seen =
      [lit "https://a.com/3", lit "https://a.com/2", lit "https://a.com/1"] := by decide

/-- Claim C3 (amended): `Crawl`'s return value is a function of the
running flag, the context and the seed list alone — worker outcomes
(fetch or parse errors) never reach it.  It is non-nil exactly in three
situations: a run already in progress returns `AlreadyRunning`; a seed
failing normalization aborts seeding and returns that error (no
callback is made for it); and cancellation observed while pushing a
fresh seed returns the context error.  With a live context, ample
capacity, and all seeds normalizable, the run returns nil. -/
theorem crawl_error_cases_amended :
    (∀ (ctxDone : Bool) (cap : Nat) (seeds : List Str),
        crawlReturn true ctxDone cap seeds = .alreadyRunning) ∧
    (∀ (cap : Nat) (seeds : List Str),
        (∀ r ∈ seeds, ∃ u, normalizeURL r = .ok u) → seeds.length ≤ cap →
        crawlReturn false false cap seeds = .completed) ∧
    (∀ (cap : Nat) (pre : List Str) (bad : Str) (post : List Str) (e : NormE),
        (∀ r ∈ pre, ∃ u, normalizeURL r = .ok u) → pre.length ≤ cap →
        normalizeURL bad = .error e →
        crawlReturn false false cap (pre ++ bad :: post) = .seedError e) ∧
    (∀ (s : Str) (u : GoURL) (seeds : List Str), normalizeURL s = .ok u →
        crawlReturn false true 0 (s :: seeds) = .ctxError) := by
  refine ⟨fun ctxDone cap seeds => rfl, ?_, ?_, ?_⟩
  · intro cap seeds hok hcap
    obtain ⟨st', n, he⟩ :=
      enqueueSeeds_all_ok false seeds { cap := cap } 0 hok (by simpa using hcap)
    simp [crawlReturn, he]
  · intro cap pre bad post e hok hcap hbad
    obtain ⟨st', he⟩ :=
      enqueueSeeds_first_err false pre { cap := cap } 0 bad post e hok
        (by simpa using hcap) hbad
    simp [crawlReturn, he]
  · intro s u seeds hn
    simp [crawlReturn, enqueueSeeds, hn]

/-- Witness for C3's amendment at concrete seed lists: good seeds
complete; a bad second seed surfaces its error; a cancelled
zero-capacity push surfaces the context error. -/
theorem crawl_error_cases_amended_witness :
    crawlReturn false false 100 [lit "https://a.com", lit "a.com"] = .completed ∧
    crawlReturn false false 100 (lit "https://a.com" :: lit "ftp://x" :: [lit "b.com"]) =
      .seedError .badScheme ∧
    crawlReturn false true 0 (lit "https://a.com" :: []) = .ctxError :=
  ⟨crawl_error_cases_amended.2.1 100 [lit "https://a.com", lit "a.com"]
      (by
        intro r hr
        rcases List.mem_cons.mp hr with rfl | hr2
        · exact ⟨{ scheme := lit "https", host := lit "a.com" }, by decide⟩
        · rcases List.mem_cons.mp hr2 with rfl | h3
          · exact ⟨{ scheme := lit "https", host := lit "a.com" }, by decide⟩
          · cases h3)
      (by decide),
   crawl_error_cases_amended.2.2.1 100 [lit "https://a.com"] (lit "ftp://x")
      [lit "b.com"] .badScheme
      (by
        intro r hr
        rcases List.mem_cons.mp hr with rfl | hr2
        · exact ⟨{ scheme := lit "https", host := lit "a.com" }, by decide⟩
        · cases hr2)
      (by decide) (by decide),
   crawl_error_cases_amended.2.2.2 (lit "https://a.com")
      { scheme := lit "https", host := lit "a.com" } [] (by decide)⟩

/-- Claim C5: the follow policy is a pure function of the candidate and
page hosts — `FollowNone` admits nothing; every behaviour acts as a
filter by the per-candidate decision `admitB` (so `FollowAny` admits
exactly the normalizable candidates); `FollowSameDomain` compares hosts
byte for byte; `FollowRelatedSubdomains` compares the last two
dot-separated labels and never matches a host with fewer than two
labels; and on base `https://example.com` with the three candidates,
`None`/`SameHost`/`Any`/`RelatedSubdomains` admit 0, the first, all 3,
and the first and third. -/
theorem filterURLs_follow_policy :
    (∀ pageU links, filterURLs .noneF pageU links = []) ∧
    (∀ b pageU links, filterURLs b pageU links = links.filter (admitB b pageU)) ∧
    (∀ u v : GoURL, AreSameHost (some u) (some v) = (u.host == v.host)) ∧
    (∀ u v : GoURL, (splitOnChar '.' u.host).length < 2 →
        AreRelatedHosts (some u) (some v) = false) ∧
    (∀ u v : GoURL, AreRelatedHosts (some u) (some v) = true ↔
        (2 ≤ (splitOnChar '.' u.host).length ∧ 2 ≤ (splitOnChar '.' v.host).length ∧
          joinDot ((splitOnChar '.' u.host).drop ((splitOnChar '.' u.host).length - 2)) =
            joinDot ((splitOnChar '.' v.host).drop ((splitOnChar '.' v.host).length - 2)))) ∧
    (normalizeURL (lit "https://example.com") = .ok pageEx ∧
      filterURLs .noneF pageEx candsEx = [] ∧
      filterURLs .sameDomain pageEx candsEx = [lit "https://example.com/a"] ∧
      filterURLs .any pageEx candsEx = candsEx ∧
      filterURLs .relatedSubdomains pageEx candsEx =
        [lit "https://example.com/a", lit "https://sub.example.com/c"]) := by
  refine ⟨fun pageU links => rfl, ?_, fun u v => rfl, ?_, ?_, by decide⟩
  · intro b pageU links
    cases b with
    | noneF =>
      simp only [filterURLs, if_pos rfl]
      induction links with
      | nil => rfl
      | cons l rest ih => simp [List.filter, admitB_noneF_false, ih]
    | any => simp [filterURLs, filterURLsLoop_eq_filter]
    | sameDomain => simp [filterURLs, filterURLsLoop_eq_filter]
    | relatedSubdomains => simp [filterURLs, filterURLsLoop_eq_filter]
  · intro u v h
    simp only [AreRelatedHosts]
    rw [if_pos (Or.inl h)]
  · intro u v
    simp only [AreRelatedHosts]
    split
    · simp only [Bool.false_eq_true, false_iff]
      omega
    · rename_i hcond
      push_neg at hcond
      simp only [beq_iff_eq]
      constructor
      · intro he
        exact ⟨by omega, by omega, he⟩
      · intro he
        exact he.2.2

/-- Witness for C5's conditional parts at concrete hosts: `localhost`
has a single label and never matches under `RelatedSubdomains`. -/
theorem filterURLs_follow_policy_witness :
    AreRelatedHosts (some { host := lit "localhost" }) (some pageEx) = false :=
  filterURLs_follow_policy.2.2.2.1 { host := lit "localhost" } pageEx (by decide)

/-- Claim C6: `ResolveLink` rejects unparsable links; an absolute link
with a scheme other than `http`/`https` (such as `mailto:`,
`javascript:`, `ftp:`) is rejected; the link's fragment is ignored
entirely; and concretely `resolve("example.com", "/about")` is
`https://example.com/about`, `resolve("example.com",
"javascript:void(0)")` is not ok, and `resolve("example.com",
"https://x.com/p#frag")` is `https://x.com/p`. -/
theorem resolveLink_spec :
    (∀ d v e, urlParse v = .error e → ResolveLink d v = ([], false)) ∧
    (∀ d v p, urlParse v = .ok p → p.scheme ≠ [] → p.scheme ≠ lit "http" →
      p.scheme ≠ lit "https" → ResolveLink d v = ([], false)) ∧
    (∀ d pre f, '#' ∉ pre → validEscapes f = true →
      ResolveLink d (pre ++ '#' :: f) = ResolveLink d pre) ∧
    (ResolveLink (lit "example.com") (lit "/about") =
        (lit "https://example.com/about", true) ∧
      ResolveLink (lit "example.com") (lit "javascript:void(0)") = ([], false) ∧
      ResolveLink (lit "example.com") (lit "https://x.com/p#frag") =
        (lit "https://x.com/p", true) ∧
      ResolveLink (lit "example.com") (lit "mailto:test@example.com") = ([], false) ∧
      ResolveLink (lit "example.com") (lit "ftp://example.com/file") = ([], false)) := by
  refine ⟨?_, ?_, ?_, by decide⟩
  · intro d v e hp
    simp [ResolveLink, hp]
  · intro d v p hp h1 h2 h3
    simp [ResolveLink, hp, h1, h2, h3]
  · intro d pre f hpre hf
    unfold ResolveLink
    rw [urlParse_append_fragment pre f hpre hf, urlParse_no_fragment pre hpre]
    cases hp : parsePre pre with
    | error e => rfl
    | ok u =>
      cases u
      rfl

/-- Witness for C6's conditional parts at concrete inputs. -/
theorem resolveLink_spec_witness :
    ResolveLink (lit "example.com") (lit ":x") = ([], false) ∧
    ResolveLink (lit "example.com") (lit "/a#s1") =
      ResolveLink (lit "example.com") (lit "/a") :=
  ⟨resolveLink_spec.1 (lit "example.com") (lit ":x") .missingScheme (by decide),
   resolveLink_spec.2.2.1 (lit "example.com") (lit "/a") (lit "s1") (by decide) (by decide)⟩

/-- Claim C3 (counterexample): with no run in progress and a live
context, a seed list whose second entry fails normalization makes
`Crawl` return that normalization error — an error case beyond the two
the claim allows, and one in which a per-URL error is not contained in
that URL's processing. -/
theorem crawl_seed_error_counterexample :
    crawlReturn false false 100 [lit "https://a.com", lit "ftp://x"] =
      .seedError .badScheme ∧
    CrawlRet.seedError .badScheme ≠ .alreadyRunning ∧
    CrawlRet.seedError .badScheme ≠ .ctxError ∧
    CrawlRet.seedError .badScheme ≠ .completed := by decide

/-- Claim C4 (counterexample): `httpx://foo` declares the non-empty
scheme `httpx`, neither `http` nor `https`, yet `NormalizeURL` succeeds
on it: the code's guard is a literal string-prefix check on `http`, not
a scheme check. -/
theorem normalizeURL_scheme_counterexample :
    declScheme (lit "httpx://foo") = lit "httpx" ∧
    lit "httpx" ≠ lit "http" ∧ lit "httpx" ≠ lit "https" ∧
    normalizeURL (lit "httpx://foo") = .ok { scheme := lit "httpx", host := lit "foo" } := by
  decide

/-- Claim C4 (amended): `NormalizeURL` returns an error exactly when the
trimmed input is empty, or when the trimmed input does not start with
the literal `http` but contains `://`, or when URL-parsing the coerced
string fails; every success has query, fragment and `ForceQuery`
cleared and no bare root path. -/
theorem normalizeURL_error_iff (s : Str) :
    ((∃ e, normalizeURL s = .error e) ↔
      (trimSpace s = [] ∨
        (startsWith (trimSpace s) (lit "http") = false ∧
          containsSeq (trimSpace s) (lit "://") = true) ∨
        ∃ pe, urlParse (coerceURL (trimSpace s)) = .error pe)) ∧
    (∀ u, normalizeURL s = .ok u →
      u.rawQuery = [] ∧ u.fragment = [] ∧ u.forceQuery = false ∧ u.path ≠ ['/']) := by
  rw [normalizeURL_eq s]
  constructor
  · by_cases h1 : trimSpace s = []
    · simp [h1]
    · rw [if_neg h1]
      by_cases h2 : startsWith (trimSpace s) (lit "http") = false ∧
          containsSeq (trimSpace s) (lit "://") = true
      · simp [h1, h2]
      · rw [if_neg h2]
        cases hp : urlParse (coerceURL (trimSpace s)) with
        | error e => simp [h1, h2, hp]
        | ok u => simp [h1, h2, hp]
  · intro u hu
    by_cases h1 : trimSpace s = []
    · rw [if_pos h1] at hu; simp at hu
    · rw [if_neg h1] at hu
      by_cases h2 : startsWith (trimSpace s) (lit "http") = false ∧
          containsSeq (trimSpace s) (lit "://") = true
      · rw [if_pos h2] at hu; simp at hu
      · rw [if_neg h2] at hu
        cases hp : urlParse (coerceURL (trimSpace s)) with
        | error e => rw [hp] at hu; simp at hu
        | ok u0 =>
          rw [hp] at hu
          simp only [Except.ok.injEq] at hu
          subst hu
          refine ⟨?_, ?_, ?_, ?_⟩ <;> split <;> simp_all

/-- Witness for C4's amendment: `ftp://x` errors through the second
disjunct; `foo` succeeds with the cleared fields. -/
theorem normalizeURL_error_iff_witness :
    (∃ e, normalizeURL (lit "ftp://x") = .error e) ∧
    (({ scheme := lit "https", host := lit "foo" } : GoURL).rawQuery = [] ∧
      ({ scheme := lit "https", host := lit "foo" } : GoURL).fragment = [] ∧
      ({ scheme := lit "https", host := lit "foo" } : GoURL).forceQuery = false ∧
      ({ scheme := lit "https", host := lit "foo" } : GoURL).path ≠ ['/']) :=
  ⟨(normalizeURL_error_iff (lit "ftp://x")).1.mpr (Or.inr (Or.inl (by decide))),
   (normalizeURL_error_iff (lit "foo")).2
     { scheme := lit "https", host := lit "foo" } (by decide)⟩

/-- Claim C1: in every reachable state of a run of the admission system
— all interleavings of atomic seed admissions, discovered-link
admissions (`LoadOrStore` then the send it gates), dequeues and
callback deliveries — each normalized URL has been pushed onto the
pending queue at most once and delivered to the callback at most once. -/
theorem crawl_callback_at_most_once (cap : Nat) (s : AdmState) (h : AdmReach cap s)
    (u : Str) : s.delivered.count u ≤ 1 ∧ s.pushed.count u ≤ 1 := by
  obtain ⟨h1, h2, _⟩ := admInv_reach cap s h
  have ha := h1 u
  have hb := h2 u
  exact ⟨by omega, ha⟩

/-- Witness for C1 on a one-step run admitting a single seed. -/
theorem crawl_callback_at_most_once_witness :
    admW1.delivered.count (lit "a") ≤ 1 ∧ admW1.pushed.count (lit "a") ≤ 1 :=
  crawl_callback_at_most_once 2 admW1
    (Relation.ReflTransGen.single
      (AdmStep.seedNew (AdmState.init 2) (lit "a") (by simp [AdmState.init])
        (by simp [AdmState.init])))
    (lit "a")

/-- Claim C9: when a discovered URL's `LoadOrStore` inserts it into the
seen set but its non-blocking queue push is dropped (full queue), the
URL stays in the seen set for the rest of the run and is never
admitted, enqueued or processed afterwards — drop-on-full loses it for
the run. -/
theorem seen_drop_on_full_permanent (cap : Nat) (s : AdmState) (u : Str)
    (hreach : AdmReach cap s) (hu : u ∉ s.seen) (t : AdmState)
    (hafter : Relation.ReflTransGen AdmStep { s with seen := u :: s.seen } t) :
    u ∈ t.seen ∧ u ∉ t.pending ∧ u ∉ t.inflight ∧ u ∉ t.delivered := by
  obtain ⟨h1, h2, h3⟩ := admInv_reach cap s hreach
  have hnp : u ∉ s.pushed := fun hm => hu (h3 u hm)
  have hc : s.pushed.count u = 0 := List.count_eq_zero.mpr hnp
  have h0 := h2 u
  have hp : u ∉ s.pending := by
    rw [← List.count_eq_zero]; omega
  have hi : u ∉ s.inflight := by
    rw [← List.count_eq_zero]; omega
  have hd : u ∉ s.delivered := by
    rw [← List.count_eq_zero]; omega
  exact adm_absent_stays hafter (List.mem_cons_self _ _) hp hi hd

/-- Witness for C9: capacity-1 run where the seed fills the queue, `b`'s
push is dropped, and the run then dequeues and delivers the seed — `b`
is never seen in the queue, in flight or delivered. -/
theorem seen_drop_on_full_permanent_witness :
    lit "b" ∈ admT9.seen ∧ lit "b" ∉ admT9.pending ∧
    lit "b" ∉ admT9.inflight ∧ lit "b" ∉ admT9.delivered :=
  seen_drop_on_full_permanent 1 admS9 (lit "b")
    (Relation.ReflTransGen.single
      (AdmStep.seedNew (AdmState.init 1) (lit "a") (by simp [AdmState.init])
        (by simp [AdmState.init])))
    (by decide)
    admT9
    (Relation.ReflTransGen.tail
      (Relation.ReflTransGen.single (AdmStep.dequeue admD9 (lit "a") [] rfl))
      (AdmStep.deliver admM9 (lit "a") (by simp [admM9])))

/-- Claim C8: a crawl seeded with one URL whose page yields zero
eligible outbound links terminates on its own: after the one URL is
processed, the idle condition (zero active workers, empty queue) that
`idleMonitor` polls for holds, the context is cancelled, the workers
exit, and `Crawl` returns — no external timeout or cancellation appears
anywhere (the whole run uses a live context). -/
theorem crawl_single_seed_idle_terminates (env : ProcEnv) (maxURLs cap : Nat)
    (seed : Str) (u0 : GoURL) (hn : normalizeURL seed = .ok u0)
    (hnl : (processURL env u0.toStr).toAdmit = [])
    (hcap : 0 < cap) (hmax : 0 < maxURLs) :
    ∃ fin : SimState,
      crawlSim env maxURLs cap 2 [seed] = some (.returned fin) ∧
      fin.processed = 1 ∧ fin.q.queue = [] := by
  have henq : enqueueSeeds false { cap := cap } [seed] 0 =
      ({ seen := [u0.toStr], queue := [u0.toStr], cap := cap }, .ok 1) := by
    simp only [enqueueSeeds, hn]
    norm_num [hcap, enqueueSeeds]
  have hrun :
      simRun env maxURLs 2 { q := { seen := [u0.toStr], queue := [u0.toStr], cap := cap } } =
        .returned
          { q := { seen := [u0.toStr], queue := [], cap := cap },
            processed := 0 + (processURL env u0.toStr).dProcessed,
            succeeded := 0 + (processURL env u0.toStr).dSucceeded,
            failed := 0 + (processURL env u0.toStr).dFailed,
            callbackLog := [] ++ (processURL env u0.toStr).callbacks } := by
    simp only [simRun]
    rw [if_neg (by omega)]
    simp only [hnl, queueDiscoveredAll, collectNext, pushAll]
  refine ⟨_, by simp only [crawlSim, henq]; rw [hrun], ?_, ?_⟩
  · simp [processURL_dProcessed]
  · rfl

/-- Witness for C8: a concrete fetcher serving a linkless page. -/
theorem crawl_single_seed_idle_terminates_witness :
    ∃ fin : SimState,
      crawlSim envNoLinks 10 10 2 [lit "https://example.com"] = some (.returned fin) ∧
      fin.processed = 1 ∧ fin.q.queue = [] :=
  crawl_single_seed_idle_terminates envNoLinks 10 10 (lit "https://example.com") pageEx
    (by decide) (by decide) (by decide) (by decide)

/-- Claim C10 (counterexample): `http:a #f` normalizes to an opaque URL
whose string is `http:a ` (trailing space); renormalizing that string
succeeds but returns `http:a`, a different string, so `NormalizeURL` is
not idempotent. -/
theorem normalizeURL_idem_counterexample :
    normalizeURL (lit "http:a #f") = .ok { scheme := lit "http", opq := lit "a " } ∧
    GoURL.toStr { scheme := lit "http", opq := lit "a " } = lit "http:a " ∧
    normalizeURL (lit "http:a ") = .ok { scheme := lit "http", opq := lit "a" } ∧
    GoURL.toStr { scheme := lit "http", opq := lit "a" } = lit "http:a" ∧
    lit "http:a" ≠ lit "http:a " := by decide


/-- Claim C10 (corrected): `NormalizeURL` is idempotent on every success
whose printed form does not end in white space and whose path prints
verbatim: if `NormalizeURL s` succeeds with `u`, `u.String()` has no
trailing space and `u`'s raw path is validly encoded, then normalizing
`u.String()` succeeds and yields a URL printing as the same string. -/
theorem normalizeURL_idempotent (s : Str) (u : GoURL) (h : normalizeURL s = .ok u)
    (hw : noTrailWs u.toStr = true) (hv : validEncodedPath u.path = true) :
    ∃ u', normalizeURL u.toStr = .ok u' ∧ u'.toStr = u.toStr := by
  obtain ⟨hrq, hfr, hfq, hpne, hcleanp, hvalp, hsh⟩ := wf_of_normalize s u h
  rcases hsh with ⟨hz1, hz2, hz3, hz4, hz5, hz6, hz7, hz8⟩ | ⟨hlow, hsh⟩
  · have ht : u.toStr = u.path := toStr_Z u hz1 hz2 hz3 hz4 hrq hfr hfq hv hz8
    rw [ht] at hw ⊢
    refine ⟨{ path := u.path }, normalizeURL_reparse_Z u.path hz7 hz8 hcleanp hvalp hw, ?_⟩
    exact toStr_Z _ rfl rfl rfl rfl rfl rfl rfl hv hz8
  · have hscne : u.scheme ≠ [] := lowerSchemeOK_ne_nil _ hlow
    rcases hsh with ⟨ho1, ho2, ho3, ho4, ho5, ho6, ho7⟩ | ⟨he1, he2, he3, he4⟩ |
      ⟨hm1, hm2, hm3, hm4, hm5, hm6⟩ | ⟨ha1, ha2, ha3, ha4, ha5, ha6, ha7⟩
    · have ht : u.toStr = u.scheme ++ ':' :: u.opq := toStr_O u hscne ho1 hrq hfr hfq
      rw [ht] at hw ⊢
      refine ⟨{ scheme := u.scheme, opq := u.opq },
        normalizeURL_reparse_O u.scheme u.opq hlow ho1 ho2 ho3 hw, ?_⟩
      exact toStr_O _ hscne ho1 rfl rfl rfl
    · have ht : u.toStr = u.scheme ++ [':'] := toStr_E u hscne he1 he2 he3 he4 hrq hfr hfq
      rw [ht] at hw ⊢
      refine ⟨{ scheme := u.scheme }, normalizeURL_reparse_E u.scheme hlow hw, ?_⟩
      exact toStr_E _ hscne rfl rfl rfl rfl rfl rfl rfl
    · have ht : u.toStr = u.scheme ++ ':' :: u.path :=
        toStr_M u hscne hm1 hm2 hm3 hm4 hrq hfr hfq hv
      rw [ht] at hw ⊢
      refine ⟨{ scheme := u.scheme, path := u.path, omitHost := true },
        normalizeURL_reparse_M u.scheme u.path hlow hm5 hm6 hcleanp hvalp hpne hw, ?_⟩
      exact toStr_M _ hscne rfl rfl rfl rfl rfl rfl rfl hv
    · have hpathh : u.path = [] ∨ u.path.head? = some '/' := by
        rcases ha5 with h5 | h5
        · exact Or.inl h5
        · right
          obtain ⟨r, hr⟩ := (startsWith_iff _ _).mp h5
          rw [hr]
          rfl
      cases hus : u.user with
      | none =>
        have hbb : u.host ≠ [] ∨ u.path ≠ [] := by
          rcases ha6 with h6 | h6 | h6
          · exact Or.inl h6
          · rw [hus] at h6
            simp at h6
          · exact Or.inr h6
        have ht : u.toStr = u.scheme ++ ':' :: '/' :: '/' :: (u.host ++ u.path) :=
          toStr_A_none u hscne ha1 hus ha2 hrq hfr hfq hv hbb hpathh
        rw [ht] at hw ⊢
        refine ⟨{ scheme := u.scheme, host := u.host, path := u.path },
          normalizeURL_reparse_A_none u.scheme u.host u.path hlow ha3 ha5 hcleanp hvalp
            hpne ha7 hw, ?_⟩
        exact toStr_A_none _ hscne rfl rfl rfl rfl rfl rfl hv hbb hpathh
      | some ui =>
        have hui := ha4 ui hus
        have ht : u.toStr =
            u.scheme ++ ':' :: '/' :: '/' :: (ui ++ '@' :: (u.host ++ u.path)) :=
          toStr_A_some u ui hscne ha1 hus ha2 hrq hfr hfq hv hpathh
        rw [ht] at hw ⊢
        refine ⟨{ scheme := u.scheme, user := some ui, host := u.host, path := u.path },
          normalizeURL_reparse_A_some u.scheme ui u.host u.path hlow ha3 hui.1 hui.2 ha5
            hcleanp hvalp hpne ha7 hw, ?_⟩
        exact toStr_A_some _ ui hscne rfl rfl rfl rfl rfl rfl hv hpathh

/-- Witness for C10: the concrete input `https://example.com/a`
satisfies every hypothesis of the idempotence theorem, which then
yields the renormalization of its printed form. -/
theorem normalizeURL_idempotent_witness :
    ∃ u, normalizeURL (lit "https://example.com/a") = .ok u ∧
      noTrailWs u.toStr = true ∧ validEncodedPath u.path = true ∧
      ∃ v, normalizeURL u.toStr = .ok v ∧ v.toStr = u.toStr := by
  refine ⟨{ scheme := lit "https", host := lit "example.com", path := lit "/a" },
    by decide, by decide, by decide,
    normalizeURL_idempotent (lit "https://example.com/a") _ (by decide) (by decide)
      (by decide)⟩

end WebSpec
